import Mathlib

/-!
Verification development for the `gparallel` slot-pool scheduler
(`src/scheduler.rs`, `src/main.rs`, `src/ui.rs`).

The scheduler is embedded as a small-step transition system.  Shared state
in the Rust code is touched inside short lock-protected critical sections
(a `tokio::sync::Mutex` around the queue and the free-GPU channel, a
`RwLock` around the observable `AppState`, an atomic counter `busy`), and
the supervisory tasks interleave arbitrarily between those sections.  Each
critical section of the source becomes one atomic event here; a
configuration records the queue, the free-slot pool (the unbounded mpsc
channel, FIFO), the busy counter, the observable job records, the
pid-tracking map and the program counters of all in-flight tasks.
-/

namespace GParallel

/-- Job lifecycle states, from `ui.rs` (`enum JobState`). -/
inductive JobState where
  | queued
  | running (gpuId : Nat)
  | completed
  | failed
deriving DecidableEq

/-- A submitted job: identifier plus command string (`scheduler.rs`, `struct JobSpec`).
Uuid v4 identifiers are modelled by naturals handed out from a fresh counter. -/
structure JobSpec where
  id : Nat
  cmd : String
deriving DecidableEq

/-- Observable per-job record, from `ui.rs` (`struct JobInfo`). -/
structure JobInfo where
  id : Nat
  cmd : String
  state : JobState
  logLines : List String
deriving DecidableEq

/-- One log append into the bounded ring buffer
(`scheduler.rs`: `log_lines.push_back(line); if log_lines.len() > 1000 { log_lines.pop_front(); }`). -/
def pushLine (buf : List String) (line : String) : List String :=
  let b := buf ++ [line]
  if 1000 < b.length then b.drop 1 else b

/-- `state.jobs.iter_mut().find(|j| j.id == id)` followed by a state write:
updates the first record with the given id, leaves the list unchanged when absent. -/
def setJobState : List JobInfo → Nat → JobState → List JobInfo
  | [], _, _ => []
  | r :: rest, jid, s =>
    if r.id = jid then { r with state := s } :: rest
    else r :: setJobState rest jid s

/-- `find` followed by a log append on the first record with the given id. -/
def appendLog : List JobInfo → Nat → String → List JobInfo
  | [], _, _ => []
  | r :: rest, jid, line =>
    if r.id = jid then { r with logLines := pushLine r.logLines line } :: rest
    else r :: appendLog rest jid line

/-- The state an observer reads for a job id (first record wins, as in the source). -/
def jobStateOf (js : List JobInfo) (jid : Nat) : Option JobState :=
  (js.find? (fun r => r.id == jid)).map (·.state)

/-- Number of records currently in state `Running`. -/
def countRunning (js : List JobInfo) : Nat :=
  (js.filter (fun r => match r.state with | .running _ => true | _ => false)).length

/-- `running_jobs.insert(job_id, pid)` (`HashMap` insert replaces an existing key). -/
def insertRunning (m : List (Nat × Nat)) (jid pid : Nat) : List (Nat × Nat) :=
  (m.filter (fun p => p.1 != jid)) ++ [(jid, pid)]

/-- `running_jobs.remove(&job_id)`. -/
def removeRunning (m : List (Nat × Nat)) (jid : Nat) : List (Nat × Nat) :=
  m.filter (fun p => p.1 != jid)

/-- Program counter of a `submit` call in flight (`Scheduler::submit`,
`scheduler.rs` lines 91-114, including the synchronous prefix of `spawn_job`).
Each constructor names the next critical section to execute. -/
inductive SubPC where
  /-- about to append the `Queued` record to `app_state.jobs` (lines 98-106) -/
  | push
  /-- about to `gpu_rx.lock().await.try_recv()` (line 108) -/
  | acquire
  /-- got a slot; about to `busy.fetch_add(1)` (line 117) -/
  | incBusy (gpu : Nat)
  /-- about to publish `Running{gpu}` (lines 120-125) -/
  | setRunning (gpu : Nat)
  /-- about to `tokio::spawn` the supervisor task (line 150) -/
  | startTask (gpu : Nat)
  /-- pool was empty; about to `queue.push_back(job)` (line 111) -/
  | enqueue
deriving DecidableEq

/-- Program counter of one supervisor task (the `tokio::spawn`ed block of
`Scheduler::spawn_job`, `scheduler.rs` lines 150-360). -/
inductive SupPC where
  /-- about to `child.spawn()` for the initially launched job (line 151) -/
  | tryInit (job : JobSpec)
  /-- initial spawn failed: about to publish `Failed` (lines 156-161) -/
  | failSet (job : JobSpec)
  /-- about to `tx.send(gpu)` on the failure path (line 162) -/
  | failSend
  /-- about to `busy.fetch_sub(1)` and return on the failure path (line 163) -/
  | failDec
  /-- spawn succeeded: about to record the pid, when the OS reported one (lines 169-171) -/
  | insertPid (jid : Nat) (pid : Option Nat)
  /-- awaiting `child_process.wait()` (line 213 / 332) -/
  | waitExit (jid : Nat)
  /-- process exited: about to publish `Completed`/`Failed` (lines 216-224 / 334-344) -/
  | setExit (jid : Nat) (ok : Bool)
  /-- about to `running_jobs.remove` (line 227 / 347) -/
  | removePid (jid : Nat)
  /-- head of the drain loop: about to `queue.pop_front()` (lines 229-234) -/
  | drain
  /-- popped a job: about to publish `Running{gpu}` for it (lines 238-245) -/
  | setNextRun (job : JobSpec)
  /-- about to `next_child.spawn()` (line 264) -/
  | tryNext (job : JobSpec)
  /-- drain-loop spawn failed: about to publish `Failed` and `continue` (lines 266-278) -/
  | nextFailSet (job : JobSpec)
  /-- queue was empty: about to `tx.send(gpu)` (line 354) -/
  | release
  /-- about to `busy.fetch_sub(1)` and break (line 355) -/
  | releaseDec
deriving DecidableEq

/-- An in-flight concurrent task: a `submit` call or a supervisor task bound to a slot. -/
inductive Task where
  | submit (job : JobSpec) (pc : SubPC)
  | sup (gpu : Nat) (pc : SupPC)
deriving DecidableEq

/-- A configuration of the scheduler: one snapshot of all shared state
(`struct Scheduler` plus `AppState.jobs`) together with the in-flight tasks. -/
structure Config where
  /-- `app_state.jobs` -/
  jobs : List JobInfo
  /-- `queue : VecDeque<JobSpec>` -/
  queue : List JobSpec
  /-- the free-slot channel `gpu_tx`/`gpu_rx` (FIFO: send appends, try_recv pops the head) -/
  pool : List Nat
  /-- `busy : AtomicUsize` -/
  busy : Nat
  /-- `running_jobs : HashMap<Uuid, u32>` as an association list -/
  running : List (Nat × Nat)
  /-- in-flight tasks -/
  tasks : List Task
  /-- fresh-id counter standing in for Uuid v4 generation -/
  nextId : Nat
deriving DecidableEq

/-- `Scheduler::is_idle` (`scheduler.rs` lines 364-366):
`queue.is_empty() && busy.load() == 0`. -/
def isIdle (c : Config) : Bool :=
  c.queue.isEmpty && c.busy == 0

/-- Atomic events.  Each corresponds to one critical section of the source;
`i` selects the in-flight task executing it. -/
inductive Evt where
  /-- a caller enters `submit(cmd)`; a fresh job id is allocated -/
  | submitStart (cmd : String)
  | subPush (i : Nat)
  | subAcquire (i : Nat)
  | subIncBusy (i : Nat)
  | subSetRunning (i : Nat)
  | subStartTask (i : Nat)
  | subEnqueue (i : Nat)
  /-- `child.spawn()` succeeded; the OS reported `pid` (or none) -/
  | spawnOk (i : Nat) (pid : Option Nat)
  /-- `child.spawn()` returned an error -/
  | spawnFail (i : Nat)
  | failSet (i : Nat)
  | failSend (i : Nat)
  | failDec (i : Nat)
  | insertPid (i : Nat)
  /-- the child process exited; `ok` is `status.success()` -/
  | procExit (i : Nat) (ok : Bool)
  | setExit (i : Nat)
  | removePid (i : Nat)
  | drain (i : Nat)
  | setNextRun (i : Nat)
  | nextFailSet (i : Nat)
  | release (i : Nat)
  | releaseDec (i : Nat)
  /-- a stdout/stderr reader task appends one captured line to a job's buffer -/
  | logLine (jid : Nat) (line : String)
deriving DecidableEq

/-- One atomic step of the system.  Returns `none` when the event is not
enabled (no task at index `i` with the required program counter). -/
def applyEvt (c : Config) : Evt → Option Config
  | .submitStart cmd =>
      some { c with tasks := c.tasks ++ [.submit ⟨c.nextId, cmd⟩ .push],
                    nextId := c.nextId + 1 }
  | .subPush i =>
      match c.tasks.get? i with
      | some (.submit j .push) =>
          some { c with jobs := c.jobs ++ [⟨j.id, j.cmd, .queued, []⟩],
                        tasks := c.tasks.set i (.submit j .acquire) }
      | _ => none
  | .subAcquire i =>
      match c.tasks.get? i with
      | some (.submit j .acquire) =>
          match c.pool with
          | g :: ps => some { c with pool := ps,
                                     tasks := c.tasks.set i (.submit j (.incBusy g)) }
          | [] => some { c with tasks := c.tasks.set i (.submit j .enqueue) }
      | _ => none
  | .subIncBusy i =>
      match c.tasks.get? i with
      | some (.submit j (.incBusy g)) =>
          some { c with busy := c.busy + 1,
                        tasks := c.tasks.set i (.submit j (.setRunning g)) }
      | _ => none
  | .subSetRunning i =>
      match c.tasks.get? i with
      | some (.submit j (.setRunning g)) =>
          some { c with jobs := setJobState c.jobs j.id (.running g),
                        tasks := c.tasks.set i (.submit j (.startTask g)) }
      | _ => none
  | .subStartTask i =>
      match c.tasks.get? i with
      | some (.submit j (.startTask g)) =>
          some { c with tasks := c.tasks.set i (.sup g (.tryInit j)) }
      | _ => none
  | .subEnqueue i =>
      match c.tasks.get? i with
      | some (.submit j .enqueue) =>
          some { c with queue := c.queue ++ [j],
                        tasks := c.tasks.eraseIdx i }
      | _ => none
  | .spawnOk i pid =>
      match c.tasks.get? i with
      | some (.sup g (.tryInit j)) =>
          some { c with tasks := c.tasks.set i (.sup g (.insertPid j.id pid)) }
      | some (.sup g (.tryNext j)) =>
          some { c with tasks := c.tasks.set i (.sup g (.insertPid j.id pid)) }
      | _ => none
  | .spawnFail i =>
      match c.tasks.get? i with
      | some (.sup g (.tryInit j)) =>
          some { c with tasks := c.tasks.set i (.sup g (.failSet j)) }
      | some (.sup g (.tryNext j)) =>
          some { c with tasks := c.tasks.set i (.sup g (.nextFailSet j)) }
      | _ => none
  | .failSet i =>
      match c.tasks.get? i with
      | some (.sup g (.failSet j)) =>
          some { c with jobs := setJobState c.jobs j.id .failed,
                        tasks := c.tasks.set i (.sup g .failSend) }
      | _ => none
  | .failSend i =>
      match c.tasks.get? i with
      | some (.sup g .failSend) =>
          some { c with pool := c.pool ++ [g],
                        tasks := c.tasks.set i (.sup g .failDec) }
      | _ => none
  | .failDec i =>
      match c.tasks.get? i with
      | some (.sup _ .failDec) =>
          some { c with busy := c.busy - 1,
                        tasks := c.tasks.eraseIdx i }
      | _ => none
  | .insertPid i =>
      match c.tasks.get? i with
      | some (.sup g (.insertPid jid pid)) =>
          some { c with running := (match pid with
                                    | some p => insertRunning c.running jid p
                                    | none => c.running),
                        tasks := c.tasks.set i (.sup g (.waitExit jid)) }
      | _ => none
  | .procExit i ok =>
      match c.tasks.get? i with
      | some (.sup g (.waitExit jid)) =>
          some { c with tasks := c.tasks.set i (.sup g (.setExit jid ok)) }
      | _ => none
  | .setExit i =>
      match c.tasks.get? i with
      | some (.sup g (.setExit jid ok)) =>
          some { c with jobs := setJobState c.jobs jid (if ok then .completed else .failed),
                        tasks := c.tasks.set i (.sup g (.removePid jid)) }
      | _ => none
  | .removePid i =>
      match c.tasks.get? i with
      | some (.sup g (.removePid jid)) =>
          some { c with running := removeRunning c.running jid,
                        tasks := c.tasks.set i (.sup g .drain) }
      | _ => none
  | .drain i =>
      match c.tasks.get? i with
      | some (.sup g .drain) =>
          match c.queue with
          | j :: qs => some { c with queue := qs,
                                     tasks := c.tasks.set i (.sup g (.setNextRun j)) }
          | [] => some { c with tasks := c.tasks.set i (.sup g .release) }
      | _ => none
  | .setNextRun i =>
      match c.tasks.get? i with
      | some (.sup g (.setNextRun j)) =>
          some { c with jobs := setJobState c.jobs j.id (.running g),
                        tasks := c.tasks.set i (.sup g (.tryNext j)) }
      | _ => none
  | .nextFailSet i =>
      match c.tasks.get? i with
      | some (.sup g (.nextFailSet j)) =>
          some { c with jobs := setJobState c.jobs j.id .failed,
                        tasks := c.tasks.set i (.sup g .drain) }
      | _ => none
  | .release i =>
      match c.tasks.get? i with
      | some (.sup g .release) =>
          some { c with pool := c.pool ++ [g],
                        tasks := c.tasks.set i (.sup g .releaseDec) }
      | _ => none
  | .releaseDec i =>
      match c.tasks.get? i with
      | some (.sup _ .releaseDec) =>
          some { c with busy := c.busy - 1,
                        tasks := c.tasks.eraseIdx i }
      | _ => none
  | .logLine jid line =>
      some { c with jobs := appendLog c.jobs jid line }

/-- Run a list of events in order; fails when any event is not enabled. -/
def applyEvts (c : Config) : List Evt → Option Config
  | [] => some c
  | e :: es =>
      match applyEvt c e with
      | some c' => applyEvts c' es
      | none => none

/-- One step of the interleaved system. -/
def Step (c c' : Config) : Prop := ∃ e, applyEvt c e = some c'

/-- Startup state with slots `0, …, S-1` sent into the free channel
(`Scheduler::new`, `scheduler.rs` lines 50-53 and 79-88). -/
def initConfig (S : Nat) : Config :=
  { jobs := [], queue := [], pool := List.range S, busy := 0,
    running := [], tasks := [], nextId := 0 }

/-- Configurations reachable from startup with `S` slots. -/
def Reachable (S : Nat) (c : Config) : Prop :=
  Relation.ReflTransGen Step (initConfig S) c

/-- The effect of one whole `submit(cmd)` call executed without
interleaving from other tasks (`Scheduler::submit` plus the synchronous
prefix of `spawn_job`, `scheduler.rs` lines 91-150). -/
def submitRun (c : Config) (cmd : String) : Config :=
  let j : JobSpec := ⟨c.nextId, cmd⟩
  let js := c.jobs ++ [⟨j.id, j.cmd, .queued, []⟩]
  match c.pool with
  | g :: ps =>
      { c with jobs := setJobState js j.id (.running g),
               pool := ps,
               busy := c.busy + 1,
               tasks := c.tasks ++ [.sup g (.tryInit j)],
               nextId := c.nextId + 1 }
  | [] =>
      { c with jobs := js,
               queue := c.queue ++ [j],
               nextId := c.nextId + 1 }

/-! ## Shutdown coordinator (`Scheduler::kill_all_jobs`, `scheduler.rs` lines 368-397)

The method text contains two signalling sweeps over the tracked-running
map — `SIGTERM` to every tracked pid (line 369 locks the map, 370-379
sweep, errors logged), a one-second sleep (line 382), then a second
`running_jobs.lock().await` (line 385) and a `SIGKILL` sweep (386-396,
`ESRCH` silently ignored).  But the `let jobs` binding at line 385
*shadows* the `MutexGuard` of line 369 without dropping it: a shadowed
binding is dropped only at the end of its scope, and `tokio::sync::Mutex`
is not reentrant, so the second `lock().await` can never acquire.  The
call therefore executes the `SIGTERM` sweep and the sleep and then
suspends forever; the `SIGKILL` sweep is unreachable dead code and the
method never returns.  The model below keeps each loop body (`killPhase`)
and executes the method body as a step machine over its await points with
explicit guard accounting, from which the permanent suspension is derived
rather than assumed.  Signal-call outcomes are supplied by an environment
`env : pid → Option errno` (`none` = success). -/

/-- The two signals used by the shutdown escalation. -/
inductive Sig where
  | sigterm
  | sigkill
deriving DecidableEq

/-- Externally observable actions of `kill_all_jobs`. -/
inductive KEvent where
  | signal (s : Sig) (pid : Nat)
  | sleepSecs (n : Nat)
deriving DecidableEq

/-- `nix::errno::Errno::ESRCH` (no such process). -/
def ESRCH : Nat := 3

/-- One signalling sweep over the tracked map: a `for` loop that signals
every entry and handles each `Result` locally, never breaking out.
`swallowEsrch` is true for the `SIGKILL` phase (line 392). -/
def killPhase (env : Nat → Option Nat) (s : Sig) (swallowEsrch : Bool) :
    List (Nat × Nat) → List KEvent × List String
  | [] => ([], [])
  | (jid, pid) :: rest =>
      let tail := killPhase env s swallowEsrch rest
      let logsHere : List String :=
        match env pid with
        | none => []
        | some e => if swallowEsrch && e == ESRCH then [] else [s!"Failed to kill job {jid}: {e}"]
      (KEvent.signal s pid :: tail.1, logsHere ++ tail.2)

/-- Program counter of one `kill_all_jobs` call, one constructor per
await point of the method body (`scheduler.rs` lines 368-397). -/
inductive KPC where
  /-- about to `running_jobs.lock().await` (line 369) -/
  | lock1
  /-- first guard held, `SIGTERM` sweep (lines 370-379, no await point)
      done; about to sleep the grace second (line 382) -/
  | sleep1
  /-- about to `running_jobs.lock().await` again (line 385) -/
  | lock2
  /-- second guard acquired; about to run the `SIGKILL` sweep (386-396) -/
  | sweepKill
  /-- end of the method body: guards dropped, call returns -/
  | done
deriving DecidableEq

/-- State of one `kill_all_jobs` call: program counter, the number of
`running_jobs` mutex guards the call currently holds, and the actions and
stderr lines emitted so far.  A `MutexGuard` is dropped at the end of its
enclosing scope; the `let jobs = ... lock().await` at line 385 shadows the
binding of line 369 without dropping its guard, so a guard once taken is
held until the method body ends. -/
structure KState where
  pc : KPC
  guards : Nat
  events : List KEvent
  logs : List String
deriving DecidableEq

/-- One step of a `kill_all_jobs` call, from one await point to the next.
`tokio::sync::Mutex` is not reentrant: `lock().await` acquires only when
no guard is outstanding, so the two lock steps are enabled only when
`guards = 0` (the call is modelled running with the mutex otherwise free;
any other holder could only delay it further).  `m1` is the tracked map at
the first read, `m2` the map at the second read (the arm mirrors the dead
code of lines 385-396).  `none` means the call is suspended with nothing
that can ever wake it. -/
def killStep (env1 env2 : Nat → Option Nat) (m1 m2 : List (Nat × Nat)) :
    KState → Option KState
  | ⟨.lock1, g, es, ls⟩ =>
      if g = 0 then
        let p1 := killPhase env1 .sigterm false m1
        some ⟨.sleep1, g + 1, es ++ p1.1, ls ++ p1.2⟩
      else none
  | ⟨.sleep1, g, es, ls⟩ => some ⟨.lock2, g, es ++ [KEvent.sleepSecs 1], ls⟩
  | ⟨.lock2, g, es, ls⟩ =>
      if g = 0 then
        let p2 := killPhase env2 .sigkill true m2
        some ⟨.sweepKill, g + 1, es ++ p2.1, ls ++ p2.2⟩
      else none
  | ⟨.sweepKill, _, es, ls⟩ => some ⟨.done, 0, es, ls⟩
  | ⟨.done, _, _, _⟩ => none

/-- A `kill_all_jobs` call starts before its first lock acquisition,
holding no guard. -/
def killInit : KState := ⟨.lock1, 0, [], []⟩

/-- The state of a `kill_all_jobs` call after `n` steps (`none` once the
call is permanently suspended). -/
def killRun (env1 env2 : Nat → Option Nat) (m1 m2 : List (Nat × Nat)) : Nat → Option KState
  | 0 => some killInit
  | n + 1 =>
      match killRun env1 env2 m1 m2 n with
      | some s => killStep env1 env2 m1 m2 s
      | none => none

/-- Effect of one emitted action on the set of alive child pids.
`resist p` means process `p` ignores the graceful signal. -/
def applyKEvent (resist : Nat → Bool) (alive : List Nat) : KEvent → List Nat
  | .signal .sigterm p => if resist p then alive else alive.filter (fun q => q != p)
  | .signal .sigkill p => alive.filter (fun q => q != p)
  | .sleepSecs _ => alive

/-- Run a list of emitted actions over the alive-pid set. -/
def runKEvents (resist : Nat → Bool) (alive : List Nat) (es : List KEvent) : List Nat :=
  es.foldl (applyKEvent resist) alive

/-! ## Command-line front end (`main.rs`) -/

/-- Rust's `str::lines`: split on `'\n'`, drop a trailing empty segment
produced by a final newline, strip one trailing `'\r'` per line. -/
def rustLines (s : String) : List String :=
  let parts := s.splitOn "\n"
  let parts := if parts.getLast? = some "" then parts.dropLast else parts
  parts.map (fun l => if l.endsWith "\r" then l.dropRight 1 else l)

/-- The scheduler-visible behaviour of `main` (`main.rs` lines 33-141) as a
function of its inputs: whether the TUI is used (`!cli.no_tui && stdout is
a tty`, line 39) and the list of commands submitted (every non-empty
trimmed line of the input file, lines 52-57, in order).  `maxRuntime` is
the parsed `--max-runtime` option (`Cli::max_runtime`, lines 28-31); the
field is never read anywhere in the program. -/
def mainRun (fileContent : String) (noTui isTty : Bool) (maxRuntime : Option String) :
    Bool × List String :=
  let useTui := !noTui && isTty
  let cmds := ((rustLines fileContent).map String.trim).filter (fun cmd => !cmd.isEmpty)
  (useTui, cmds)

/-! ## Concrete executions -/

/-- S = 1; a command whose process image cannot be started is submitted,
a second command is submitted before the spawn-failure handler runs, then
the failure handler runs to completion (`scheduler.rs` lines 150-166). -/
def c1evs : List Evt :=
  [.submitStart "a", .subPush 0, .subAcquire 0, .subIncBusy 0, .subSetRunning 0, .subStartTask 0,
   .submitStart "b", .subPush 1, .subAcquire 1, .subEnqueue 1,
   .spawnFail 0, .failSet 0, .failSend 0, .failDec 0]

/-- The configuration reached by `c1evs`. -/
def c1cfg : Config := (applyEvts (initConfig 1) c1evs).getD (initConfig 1)

/-- S = 1; one job runs and its process exits successfully; execution is
observed right after the terminal state is published and the pid removed,
while the supervisor has not yet reached the queue-drain/release section. -/
def c2cexEvs : List Evt :=
  [.submitStart "a", .subPush 0, .subAcquire 0, .subIncBusy 0, .subSetRunning 0, .subStartTask 0,
   .spawnOk 0 (some 42), .insertPid 0, .procExit 0 true, .setExit 0, .removePid 0]

/-- The configuration reached by `c2cexEvs`. -/
def c2cexCfg : Config := (applyEvts (initConfig 1) c2cexEvs).getD (initConfig 1)

/-- S = 1; a submit has popped the free slot from the pool but has not yet
published `Running` (between `try_recv`, line 108, and line 123). -/
def c4cexEvs : List Evt :=
  [.submitStart "a", .subPush 0, .subAcquire 0]

/-- The configuration reached by `c4cexEvs`. -/
def c4cexCfg : Config := (applyEvts (initConfig 1) c4cexEvs).getD (initConfig 1)

/-- S = 1; three commands are submitted, the first acquires the only slot,
the other two queue; each process exits successfully and the supervisor
drains the queue on the same slot, releasing it only after the final empty
pop. -/
def c5evs : List Evt :=
  [.submitStart "a", .subPush 0, .subAcquire 0, .subIncBusy 0, .subSetRunning 0, .subStartTask 0,
   .submitStart "b", .subPush 1, .subAcquire 1, .subEnqueue 1,
   .submitStart "c", .subPush 1, .subAcquire 1, .subEnqueue 1,
   .spawnOk 0 (some 100), .insertPid 0, .procExit 0 true, .setExit 0, .removePid 0,
   .drain 0, .setNextRun 0, .spawnOk 0 (some 101), .insertPid 0, .procExit 0 true, .setExit 0,
   .removePid 0,
   .drain 0, .setNextRun 0, .spawnOk 0 (some 102), .insertPid 0, .procExit 0 true, .setExit 0,
   .removePid 0,
   .drain 0, .release 0, .releaseDec 0]

/-- The configuration reached by `c5evs`. -/
def c5cfg : Config := (applyEvts (initConfig 1) c5evs).getD (initConfig 1)

/-- S = 1; one command is submitted and published `Running`. -/
def c8evs : List Evt :=
  [.submitStart "a", .subPush 0, .subAcquire 0, .subIncBusy 0, .subSetRunning 0]

/-- The configuration reached by `c8evs`. -/
def c8cfg : Config := (applyEvts (initConfig 1) c8evs).getD (initConfig 1)

/-! ## Structural accounting used by the reachability invariant -/

/-- Job ids a task currently refers to (its own job, or the job whose
process it is supervising). -/
def Task.refIds : Task → List Nat
  | .submit j _ => [j.id]
  | .sup _ (.tryInit j) => [j.id]
  | .sup _ (.failSet j) => [j.id]
  | .sup _ (.insertPid jid _) => [jid]
  | .sup _ (.waitExit jid) => [jid]
  | .sup _ (.setExit jid _) => [jid]
  | .sup _ (.removePid jid) => [jid]
  | .sup _ (.setNextRun j) => [j.id]
  | .sup _ (.tryNext j) => [j.id]
  | .sup _ (.nextFailSet j) => [j.id]
  | .sup _ .drain => []
  | .sup _ .failSend => []
  | .sup _ .failDec => []
  | .sup _ .release => []
  | .sup _ .releaseDec => []

/-- Job ids whose record the task currently holds published as `Running`. -/
def Task.ownedIds : Task → List Nat
  | .submit j (.startTask _) => [j.id]
  | .sup _ (.tryInit j) => [j.id]
  | .sup _ (.failSet j) => [j.id]
  | .sup _ (.insertPid jid _) => [jid]
  | .sup _ (.waitExit jid) => [jid]
  | .sup _ (.setExit jid _) => [jid]
  | .sup _ (.tryNext j) => [j.id]
  | .sup _ (.nextFailSet j) => [j.id]
  | _ => []

/-- 1 while the task holds a slot that is not in the free pool. -/
def Task.heldCount : Task → Nat
  | .submit _ (.incBusy _) => 1
  | .submit _ (.setRunning _) => 1
  | .submit _ (.startTask _) => 1
  | .submit _ _ => 0
  | .sup _ .failDec => 0
  | .sup _ .releaseDec => 0
  | .sup _ _ => 1

/-- 1 from the task's `busy.fetch_add` to its `busy.fetch_sub`. -/
def Task.busyContrib : Task → Nat
  | .submit _ (.setRunning _) => 1
  | .submit _ (.startTask _) => 1
  | .submit _ _ => 0
  | .sup _ _ => 1

/-- Concatenation of a list-valued function over the task list. -/
def catMap (f : Task → List Nat) : List Task → List Nat
  | [] => []
  | t :: ts => f t ++ catMap f ts

/-- Sum of a numeric function over the task list. -/
def natSum (f : Task → Nat) : List Task → Nat
  | [] => 0
  | t :: ts => f t + natSum f ts

/-- All job ids referenced by the backlog queue or by any in-flight task. -/
def allRef (c : Config) : List Nat :=
  c.queue.map JobSpec.id ++ catMap Task.refIds c.tasks

/-- All job ids published as `Running` and attributed to an owner task. -/
def ownedAll (c : Config) : List Nat := catMap Task.ownedIds c.tasks

/-- Per-task consistency between the task's program counter and the
observable record of the job it refers to. -/
def TaskOK (js : List JobInfo) : Task → Prop
  | .submit j .push => jobStateOf js j.id = none
  | .submit j .acquire => jobStateOf js j.id = some .queued
  | .submit j (.incBusy _) => jobStateOf js j.id = some .queued
  | .submit j (.setRunning _) => jobStateOf js j.id = some .queued
  | .submit j (.startTask g) => jobStateOf js j.id = some (.running g)
  | .submit j .enqueue => jobStateOf js j.id = some .queued
  | .sup g (.tryInit j) => jobStateOf js j.id = some (.running g)
  | .sup g (.failSet j) => jobStateOf js j.id = some (.running g)
  | .sup g (.insertPid jid _) => jobStateOf js jid = some (.running g)
  | .sup g (.waitExit jid) => jobStateOf js jid = some (.running g)
  | .sup g (.setExit jid _) => jobStateOf js jid = some (.running g)
  | .sup _ (.removePid jid) =>
      jobStateOf js jid = some .completed ∨ jobStateOf js jid = some .failed
  | .sup g (.setNextRun j) => jobStateOf js j.id = some .queued
  | .sup g (.tryNext j) => jobStateOf js j.id = some (.running g)
  | .sup g (.nextFailSet j) => jobStateOf js j.id = some (.running g)
  | .sup _ .drain => True
  | .sup _ .failSend => True
  | .sup _ .failDec => True
  | .sup _ .release => True
  | .sup _ .releaseDec => True

/-- The inductive invariant of reachable configurations with `S` slots. -/
structure Inv (S : Nat) (c : Config) : Prop where
  jobsNodup : (c.jobs.map JobInfo.id).Nodup
  jobsLt : ∀ r ∈ c.jobs, r.id < c.nextId
  refLt : ∀ x ∈ allRef c, x < c.nextId
  refNodup : (allRef c).Nodup
  queueQueued : ∀ js ∈ c.queue, jobStateOf c.jobs js.id = some .queued
  tasksOK : ∀ t ∈ c.tasks, TaskOK c.jobs t
  runningOwned : ∀ r ∈ c.jobs, (∃ g, r.state = .running g) → r.id ∈ ownedAll c
  slotConserve : c.pool.length + natSum Task.heldCount c.tasks = S
  busyEq : c.busy = natSum Task.busyContrib c.tasks

/-! ## Basic lemmas -/

theorem applyEvts_sound (es : List Evt) : ∀ {c c' : Config},
    applyEvts c es = some c' → Relation.ReflTransGen Step c c' := by
  induction es with
  | nil =>
      intro c c' h
      simp only [applyEvts] at h
      cases h
      exact .refl
  | cons e es ih =>
      intro c c' h
      simp only [applyEvts] at h
      cases he : applyEvt c e with
      | none => rw [he] at h; cases h
      | some c₁ =>
          rw [he] at h
          exact Relation.ReflTransGen.head ⟨e, he⟩ (ih h)

theorem applyEvt_of_no_tasks {c : Config} (ht : c.tasks = []) {e : Evt} {c' : Config}
    (h : applyEvt c e = some c') :
    (∃ cmd, e = .submitStart cmd) ∨ (∃ jid line, e = .logLine jid line) := by
  cases e <;>
    simp only [applyEvt, ht, List.get?] at h <;>
    first
      | exact Or.inl ⟨_, rfl⟩
      | exact Or.inr ⟨_, _, rfl⟩
      | (rename_i i; cases i <;> simp_all)
      | (rename_i i _; cases i <;> simp_all)

/-! ## Claim theorems: launch failure path -/

/-- C1: the claim fails on the code.  On the initial launch path
(`scheduler.rs` lines 150-166) a spawn failure marks the job Failed and is
not retried, but the supervisor does NOT proceed to the queue-drain step:
it sends the slot back to the pool and returns.  In the reachable
configuration below the queue is non-empty, the slot sits idle in the free
pool, no supervisor task exists any more, and no event other than a brand
new submission (or a log append) is enabled — the queued job is left
permanently Queued. -/
theorem c1_initial_spawn_failure_skips_drain :
    Reachable 1 c1cfg ∧
    c1cfg.queue ≠ [] ∧ c1cfg.pool = [0] ∧ c1cfg.busy = 0 ∧ c1cfg.tasks = [] ∧
    jobStateOf c1cfg.jobs 0 = some .failed ∧
    jobStateOf c1cfg.jobs 1 = some .queued ∧
    (∀ e c', applyEvt c1cfg e = some c' →
      (∃ cmd, e = .submitStart cmd) ∨ (∃ jid line, e = .logLine jid line)) :=
  ⟨applyEvts_sound c1evs (by decide), by decide, by decide, by decide, by decide,
   by decide, by decide, fun _ _ h => applyEvt_of_no_tasks (by decide) h⟩

/-- Closed instance of the quantified conjunct of
`c1_initial_spawn_failure_skips_drain`. -/
theorem c1_initial_spawn_failure_skips_drain_witness :
    (∃ cmd, Evt.submitStart "x" = Evt.submitStart cmd) ∨
      (∃ jid line, Evt.submitStart "x" = Evt.logLine jid line) :=
  c1_initial_spawn_failure_skips_drain.2.2.2.2.2.2.2 (Evt.submitStart "x")
    ((applyEvt c1cfg (Evt.submitStart "x")).getD c1cfg) (by decide)

/-! ## Claim theorems: queue drain and slot reuse -/

/-- C5: when a running job's process exits the supervisor loops popping the
queue; a popped job is set up to run on the same slot with the pool
untouched, and only an empty pop moves the task on to the release section.
Concretely, with S = 1 and three submitted commands all three run
sequentially on slot 0, the slot never entering the free pool in between
and being released exactly once at the end. -/
theorem c5_slot_reuse_without_pool_roundtrip :
    (∀ c e c', applyEvt c e = some c' → c.pool.length < c'.pool.length →
      (∃ i, e = .failSend i) ∨ (∃ i, e = .release i)) ∧
    (∀ c i c', applyEvt c (.drain i) = some c' →
      c'.pool = c.pool ∧
      ∃ g, c.tasks.get? i = some (.sup g .drain) ∧
        (c.queue = [] → c'.tasks.get? i = some (.sup g .release)) ∧
        (∀ j qs, c.queue = j :: qs →
           c'.queue = qs ∧ c'.tasks.get? i = some (.sup g (.setNextRun j)))) ∧
    Reachable 1 c5cfg ∧
    (∀ k, k < 35 → 3 ≤ k →
       (applyEvts (initConfig 1) (c5evs.take k)).map Config.pool = some []) ∧
    (applyEvts (initConfig 1) (c5evs.take 5)).map (fun c => jobStateOf c.jobs 0)
        = some (some (.running 0)) ∧
    (applyEvts (initConfig 1) (c5evs.take 21)).map (fun c => jobStateOf c.jobs 1)
        = some (some (.running 0)) ∧
    (applyEvts (initConfig 1) (c5evs.take 28)).map (fun c => jobStateOf c.jobs 2)
        = some (some (.running 0)) ∧
    c5cfg.pool = [0] ∧ c5cfg.busy = 0 ∧ c5cfg.queue = [] ∧
    jobStateOf c5cfg.jobs 0 = some .completed ∧
    jobStateOf c5cfg.jobs 1 = some .completed ∧
    jobStateOf c5cfg.jobs 2 = some .completed := by
  refine ⟨?_, ?_, applyEvts_sound c5evs (by decide), by decide, by decide, by decide, by decide,
    by decide, by decide, by decide, by decide, by decide, by decide⟩
  · intro c e c' h hlt
    cases e
    case failSend i => exact Or.inl ⟨i, rfl⟩
    case release i => exact Or.inr ⟨i, rfl⟩
    all_goals
      simp only [applyEvt] at h
      (try split at h) <;> (try split at h) <;> cases h <;> (try simp_all) <;> (try omega)
  · intro c i c' h
    simp only [applyEvt] at h
    split at h
    case _ g hg =>
      have hi : i < c.tasks.length := (List.get?_eq_some.mp hg).1
      cases hq : c.queue with
      | nil =>
          rw [hq] at h
          cases h
          refine ⟨rfl, g, hg, ?_, ?_⟩
          · intro _
            exact List.get?_set_eq_of_lt _ hi
          · intro j qs hjq
            cases hjq
      | cons j qs =>
          rw [hq] at h
          cases h
          refine ⟨rfl, g, hg, ?_, ?_⟩
          · intro hnil
            cases hnil
          · intro j' qs' hjq
            injection hjq with h1 h2
            subst h1
            subst h2
            exact ⟨rfl, List.get?_set_eq_of_lt _ hi⟩
    case _ => cases h

/-- Closed instance of the quantified conjuncts of
`c5_slot_reuse_without_pool_roundtrip`. -/
theorem c5_slot_reuse_without_pool_roundtrip_witness :
    (applyEvts (initConfig 1) (c5evs.take 3)).map Config.pool = some [] :=
  c5_slot_reuse_without_pool_roundtrip.2.2.2.1 3 (by decide) (by decide)

/-! ## Shutdown coordinator lemmas -/

theorem killPhase_events (env : Nat → Option Nat) (s : Sig) (sw : Bool) :
    ∀ m : List (Nat × Nat), (killPhase env s sw m).1 = m.map (fun p => KEvent.signal s p.2) := by
  intro m
  induction m with
  | nil => rfl
  | cons hd tl ih =>
      cases hd
      simp [killPhase, ih]

theorem applyKEvent_dead (r : Nat → Bool) (a : List Nat) (s : Sig) (p : Nat)
    (hp : p ∉ a) : applyKEvent r a (.signal s p) = a := by
  have hfe : a.filter (fun q => q != p) = a := by
    apply List.filter_eq_self.mpr
    intro q hq
    simp only [bne_iff_ne, ne_eq, decide_eq_true_eq]
    intro hqp
    exact hp (hqp ▸ hq)
  cases s with
  | sigterm =>
      simp only [applyKEvent]
      split
      · rfl
      · exact hfe
  | sigkill => exact hfe

theorem killRun_one (env1 env2 : Nat → Option Nat) (m1 m2 : List (Nat × Nat)) :
    killRun env1 env2 m1 m2 1 = some ⟨.sleep1, 1,
      (killPhase env1 .sigterm false m1).1, (killPhase env1 .sigterm false m1).2⟩ := by
  simp [killRun, killInit, killStep]

theorem killRun_two (env1 env2 : Nat → Option Nat) (m1 m2 : List (Nat × Nat)) :
    killRun env1 env2 m1 m2 2 = some ⟨.lock2, 1,
      (killPhase env1 .sigterm false m1).1 ++ [KEvent.sleepSecs 1],
      (killPhase env1 .sigterm false m1).2⟩ := by
  simp [killRun, killInit, killStep]

/-- At the third await point — the second `running_jobs.lock().await`
(`scheduler.rs:385`) — the call still holds the guard of line 369, so the
step is disabled and the call is suspended for good. -/
theorem killRun_three (env1 env2 : Nat → Option Nat) (m1 m2 : List (Nat × Nat)) :
    killRun env1 env2 m1 m2 3 = none := by
  simp [killRun, killInit, killStep]

theorem killRun_none_succ (env1 env2 : Nat → Option Nat) (m1 m2 : List (Nat × Nat))
    (n : Nat) (h : killRun env1 env2 m1 m2 n = none) :
    killRun env1 env2 m1 m2 (n + 1) = none := by
  simp only [killRun, h]

theorem killRun_blocked (env1 env2 : Nat → Option Nat) (m1 m2 : List (Nat × Nat)) :
    ∀ n, 3 ≤ n → killRun env1 env2 m1 m2 n = none := by
  intro n
  induction n with
  | zero => intro h; omega
  | succ k ih =>
      intro hn
      rcases Nat.lt_or_ge k 3 with hk | hk
      · have hk2 : k = 2 := by omega
        subst hk2
        exact killRun_three env1 env2 m1 m2
      · exact killRun_none_succ env1 env2 m1 m2 k (ih hk)

/-- The only states a `kill_all_jobs` call ever reaches: not yet started,
after the `SIGTERM` sweep, and after the grace sleep (parked at the second
lock). -/
theorem killRun_cases (env1 env2 : Nat → Option Nat) (m1 m2 : List (Nat × Nat)) :
    ∀ n s, killRun env1 env2 m1 m2 n = some s →
      s = killInit ∨
      s = ⟨.sleep1, 1, (killPhase env1 .sigterm false m1).1,
            (killPhase env1 .sigterm false m1).2⟩ ∨
      s = ⟨.lock2, 1, (killPhase env1 .sigterm false m1).1 ++ [KEvent.sleepSecs 1],
            (killPhase env1 .sigterm false m1).2⟩ := by
  intro n s h
  by_cases h3 : 3 ≤ n
  · rw [killRun_blocked env1 env2 m1 m2 n h3] at h
    cases h
  · have hcase : n = 0 ∨ n = 1 ∨ n = 2 := by omega
    rcases hcase with rfl | rfl | rfl
    · simp only [killRun] at h
      cases h
      exact Or.inl rfl
    · rw [killRun_one] at h
      cases h
      exact Or.inr (Or.inl rfl)
    · rw [killRun_two] at h
      cases h
      exact Or.inr (Or.inr rfl)

theorem sigterm_events_no_sigkill (env1 : Nat → Option Nat) (m1 : List (Nat × Nat))
    (p : Nat) : KEvent.signal .sigkill p ∉ (killPhase env1 .sigterm false m1).1 := by
  rw [killPhase_events]
  intro hmem
  obtain ⟨q, _, he⟩ := List.mem_map.mp hmem
  injection he with h1 h2
  cases h1

/-- A process that survives graceful signals is untouched by any event
list containing no `SIGKILL`. -/
theorem runKEvents_resist_all (resist : Nat → Bool) (hres : ∀ p, resist p = true) :
    ∀ (es : List KEvent), (∀ p, KEvent.signal .sigkill p ∉ es) →
      ∀ alive : List Nat, runKEvents resist alive es = alive := by
  intro es
  induction es with
  | nil => intro _ alive; rfl
  | cons e es ih =>
      intro hnk alive
      have htail : ∀ p, KEvent.signal .sigkill p ∉ es :=
        fun p hp => hnk p (List.mem_cons_of_mem e hp)
      cases e with
      | signal s p =>
          cases s with
          | sigterm =>
              show runKEvents resist (applyKEvent resist alive (.signal .sigterm p)) es
                  = alive
              rw [show applyKEvent resist alive (.signal .sigterm p) = alive by
                simp [applyKEvent, hres p]]
              exact ih htail alive
          | sigkill => exact absurd (List.mem_cons_self _ _) (hnk p)
      | sleepSecs k =>
          show runKEvents resist (applyKEvent resist alive (.sleepSecs k)) es = alive
          exact ih htail alive

/-! ## Claim theorems: shutdown coordinator -/

/-- C6: the claim fails on the code.  `kill_all_jobs` does send `SIGTERM`
to every process tracked at the first map read and sleeps the fixed
one-second grace, but the `MutexGuard` taken at `scheduler.rs:369` is
shadowed — not dropped — by the `let jobs` at line 385, so the second
`running_jobs.lock().await` on the non-reentrant mutex never acquires:
after the grace sleep the call suspends forever, the `SIGKILL` sweep is
unreachable, no forceful signal is ever emitted, and a process that
ignores the graceful signal survives the entire call. -/
theorem c6_sigkill_phase_unreachable (env1 env2 : Nat → Option Nat)
    (m1 m2 : List (Nat × Nat)) :
    killRun env1 env2 m1 m2 2 = some ⟨.lock2, 1,
        m1.map (fun p => KEvent.signal .sigterm p.2) ++ [KEvent.sleepSecs 1],
        (killPhase env1 .sigterm false m1).2⟩ ∧
    (∀ n, 3 ≤ n → killRun env1 env2 m1 m2 n = none) ∧
    (∀ n s, killRun env1 env2 m1 m2 n = some s →
        s.pc ≠ .done ∧ s.pc ≠ .sweepKill ∧
        ∀ p, KEvent.signal .sigkill p ∉ s.events) ∧
    (∀ resist : Nat → Bool, (∀ p, resist p = true) →
        ∀ n s, killRun env1 env2 m1 m2 n = some s →
          ∀ alive : List Nat, runKEvents resist alive s.events = alive) := by
  have hnosk : ∀ n s, killRun env1 env2 m1 m2 n = some s →
      ∀ p, KEvent.signal .sigkill p ∉ s.events := by
    intro n s h p
    rcases killRun_cases env1 env2 m1 m2 n s h with rfl | rfl | rfl
    · simp [killInit]
    · exact sigterm_events_no_sigkill env1 m1 p
    · intro hp
      rcases List.mem_append.mp hp with hp | hp
      · exact sigterm_events_no_sigkill env1 m1 p hp
      · cases List.mem_singleton.mp hp
  refine ⟨?_, killRun_blocked env1 env2 m1 m2, ?_, ?_⟩
  · rw [killRun_two, killPhase_events]
  · intro n s h
    refine ⟨?_, ?_, hnosk n s h⟩ <;>
      rcases killRun_cases env1 env2 m1 m2 n s h with rfl | rfl | rfl <;>
        simp [killInit]
  · intro resist hres n s h alive
    exact runKEvents_resist_all resist hres s.events (hnosk n s h) alive

/-- Closed instance of `c6_sigkill_phase_unreachable`: with one tracked
job (pid 42) the call is suspended for good right after the grace
sleep. -/
theorem c6_sigkill_phase_unreachable_witness :
    killRun (fun _ => none) (fun _ => none) [(0, 42)] [(0, 42)] 3 = none :=
  (c6_sigkill_phase_unreachable (fun _ => none) (fun _ => none)
    [(0, 42)] [(0, 42)]).2.1 3 (by decide)

/-- C3: the claim fails on the code.  Its signal-handling half does hold
locally — a termination signal to an already-exited process leaves the
alive set unchanged, and every per-signal error is consumed inside the
sweep loop — but `terminate_all` can never be "called twice in a row":
the first call never returns.  It runs the `SIGTERM` sweep and the grace
sleep and then suspends forever at the second `running_jobs.lock().await`
(`scheduler.rs:385`), whose acquisition needs the guard of line 369 to be
dropped, which happens only at the end of the method body it never
reaches. -/
theorem c3_second_call_impossible (env1 env2 : Nat → Option Nat)
    (m1 m2 : List (Nat × Nat)) :
    (∀ (resist : Nat → Bool) (s : Sig) (p : Nat) (alive : List Nat), p ∉ alive →
        applyKEvent resist alive (KEvent.signal s p) = alive) ∧
    (∀ n s, killRun env1 env2 m1 m2 n = some s → s.pc ≠ .done) ∧
    (∀ n, 3 ≤ n → killRun env1 env2 m1 m2 n = none) := by
  refine ⟨fun resist s p alive hp => applyKEvent_dead resist alive s p hp, ?_,
    killRun_blocked env1 env2 m1 m2⟩
  intro n s h
  rcases killRun_cases env1 env2 m1 m2 n s h with rfl | rfl | rfl <;> simp [killInit]

/-- Closed instance of `c3_second_call_impossible`: a graceful signal to
the dead pid 42 leaves an empty alive set empty. -/
theorem c3_second_call_impossible_witness :
    applyKEvent (fun _ => true) [] (KEvent.signal .sigterm 42) = [] :=
  (c3_second_call_impossible (fun _ => none) (fun _ => none)
    [(0, 42)] [(0, 42)]).1 (fun _ => true) .sigterm 42 [] (by decide)

/-- C9: the claim fails on the code.  It speaks of the state "after
`terminate_all` returns", but the call never returns: it suspends forever
at the second `running_jobs.lock().await` while still holding the guard
acquired at `scheduler.rs:369`, so from the grace sleep on the
`running_jobs` mutex is never free again and every supervisor pid
insert/remove blocks behind it.  The steps the call does execute emit only
signals and the grace sleep — the enumerated event traces contain no write
to the queue, the pool, the busy counter or any job record — but the
post-return state the claim describes is never reached. -/
theorem c9_no_return_holds_pid_lock (env1 env2 : Nat → Option Nat)
    (m1 m2 : List (Nat × Nat)) :
    (∀ n s, killRun env1 env2 m1 m2 n = some s → s.pc ≠ .done) ∧
    (∀ n s, killRun env1 env2 m1 m2 n = some s → s.pc ≠ .lock1 → s.guards = 1) ∧
    (∀ n s, killRun env1 env2 m1 m2 n = some s →
        s.events = [] ∨
        s.events = m1.map (fun p => KEvent.signal .sigterm p.2) ∨
        s.events = m1.map (fun p => KEvent.signal .sigterm p.2) ++
          [KEvent.sleepSecs 1]) := by
  refine ⟨?_, ?_, ?_⟩
  · intro n s h
    rcases killRun_cases env1 env2 m1 m2 n s h with rfl | rfl | rfl <;> simp [killInit]
  · intro n s h hpc
    rcases killRun_cases env1 env2 m1 m2 n s h with rfl | rfl | rfl
    · exact absurd rfl hpc
    · rfl
    · rfl
  · intro n s h
    rcases killRun_cases env1 env2 m1 m2 n s h with rfl | rfl | rfl
    · exact Or.inl rfl
    · exact Or.inr (Or.inl (killPhase_events env1 .sigterm false m1))
    · refine Or.inr (Or.inr ?_)
      rw [show KState.events ⟨.lock2, 1,
          (killPhase env1 .sigterm false m1).1 ++ [KEvent.sleepSecs 1],
          (killPhase env1 .sigterm false m1).2⟩ =
        (killPhase env1 .sigterm false m1).1 ++ [KEvent.sleepSecs 1] from rfl]
      rw [killPhase_events]

/-- Closed instance of `c9_no_return_holds_pid_lock`: parked at the second
lock with one tracked job (pid 42), the call still holds one
`running_jobs` guard. -/
theorem c9_no_return_holds_pid_lock_witness :
    (⟨.lock2, 1, [KEvent.signal .sigterm 42, KEvent.sleepSecs 1], []⟩ : KState).guards
      = 1 :=
  (c9_no_return_holds_pid_lock (fun _ => none) (fun _ => none)
    [(0, 42)] [(0, 42)]).2.1 2
    ⟨.lock2, 1, [KEvent.signal .sigterm 42, KEvent.sleepSecs 1], []⟩
    (by decide) (by decide)

/-! ## Claim theorems: bounded log ring buffer -/

/-- C7: the per-job log buffer is a 1000-line ring: one append preserves
the capacity bound, and any sequence of appends leaves exactly the most
recent 1000 lines in emission order (the oldest line is evicted first);
in particular 1500 appended lines leave exactly the last 1000, in order. -/
theorem c7_log_ring_buffer :
    (∀ (buf : List String) (line : String), buf.length ≤ 1000 →
       (pushLine buf line).length ≤ 1000) ∧
    (∀ (ls : List String) (buf : List String), buf.length ≤ 1000 →
       List.foldl pushLine buf ls = (buf ++ ls).drop ((buf ++ ls).length - 1000)) ∧
    (∀ ls : List String, ls.length = 1500 → List.foldl pushLine [] ls = ls.drop 500) := by
  have hcap : ∀ (buf : List String) (line : String), buf.length ≤ 1000 →
      (pushLine buf line).length ≤ 1000 := by
    intro buf line h
    simp only [pushLine]
    split <;>
      simp only [List.length_drop, List.length_append, List.length_cons,
        List.length_nil] at * <;> omega
  have hmain : ∀ (ls : List String) (buf : List String), buf.length ≤ 1000 →
      List.foldl pushLine buf ls = (buf ++ ls).drop ((buf ++ ls).length - 1000) := by
    intro ls
    induction ls with
    | nil =>
        intro buf h
        have h0 : buf.length - 1000 = 0 := by omega
        simp [h0]
    | cons a ls ih =>
        intro buf h
        rw [List.foldl_cons]
        rcases Nat.lt_or_ge buf.length 1000 with hlt | hge
        · have hpush : pushLine buf a = buf ++ [a] := by
            simp only [pushLine]
            rw [if_neg]
            simp only [List.length_append, List.length_cons, List.length_nil]
            omega
          rw [hpush, ih _ (by simp only [List.length_append, List.length_cons,
            List.length_nil]; omega)]
          have hx : (buf ++ [a]) ++ ls = buf ++ a :: ls := by simp
          rw [hx]
        · have h1000 : buf.length = 1000 := le_antisymm h hge
          have hpush : pushLine buf a = (buf ++ [a]).drop 1 := by
            simp only [pushLine]
            rw [if_pos]
            simp only [List.length_append, List.length_cons, List.length_nil]
            omega
          rw [hpush, ih _ (by simp only [List.length_drop, List.length_append,
            List.length_cons, List.length_nil]; omega)]
          rw [← List.drop_append_of_le_length
            (by simp only [List.length_append, List.length_cons, List.length_nil]; omega)]
          rw [List.drop_drop]
          have hx : (buf ++ [a]) ++ ls = buf ++ a :: ls := by simp
          rw [hx]
          have hAB : 1 + (((buf ++ a :: ls).drop 1).length - 1000)
              = (buf ++ a :: ls).length - 1000 := by
            simp only [List.length_drop, List.length_append, List.length_cons]
            omega
          rw [hAB]
  refine ⟨hcap, hmain, ?_⟩
  intro ls hlen
  have := hmain ls [] (by simp)
  simp only [List.nil_append] at this
  rw [this, hlen]

/-- Closed instance of `c7_log_ring_buffer`: a buffer receiving 1500 lines
retains exactly the last 1000 of them. -/
theorem c7_log_ring_buffer_witness :
    List.foldl pushLine [] ((List.range 1500).map toString) =
      ((List.range 1500).map toString).drop 500 :=
  c7_log_ring_buffer.2.2 ((List.range 1500).map toString) (by simp)

/-! ## Claim theorems: `--max-runtime` is parsed but never read -/

/-- C10: for any input file and TUI configuration, the scheduler-visible
behaviour of `main` — whether the TUI is used and which commands are
submitted, i.e. everything that determines the scheduler runs — is
identical for any two values of the `--max-runtime` option: the parsed
field is never read. -/
theorem c10_max_runtime_never_read (fileContent : String) (noTui isTty : Bool)
    (mr mr' : Option String) :
    mainRun fileContent noTui isTty mr = mainRun fileContent noTui isTty mr' := rfl

/-! ## Lemmas about the job-record list -/

theorem setJobState_map_id (js : List JobInfo) (jid : Nat) (s : JobState) :
    (setJobState js jid s).map JobInfo.id = js.map JobInfo.id := by
  induction js with
  | nil => rfl
  | cons r rest ih =>
      simp only [setJobState]
      split <;> simp [ih]

theorem appendLog_map_id (js : List JobInfo) (jid : Nat) (line : String) :
    (appendLog js jid line).map JobInfo.id = js.map JobInfo.id := by
  induction js with
  | nil => rfl
  | cons r rest ih =>
      simp only [appendLog]
      split <;> simp [ih]

theorem jobStateOf_setJobState_self (js : List JobInfo) (jid : Nat) (s : JobState) :
    jobStateOf (setJobState js jid s) jid = (jobStateOf js jid).map (fun _ => s) := by
  induction js with
  | nil => rfl
  | cons r rest ih =>
      simp only [setJobState]
      by_cases hid : r.id = jid
      · simp [jobStateOf, List.find?, hid]
      · rw [if_neg hid]
        simp only [jobStateOf, List.find?] at ih ⊢
        have : (r.id == jid) = false := by simp [hid]
        simp only [this]
        exact ih

theorem jobStateOf_setJobState_ne (js : List JobInfo) (jid x : Nat) (s : JobState)
    (hne : x ≠ jid) : jobStateOf (setJobState js jid s) x = jobStateOf js x := by
  induction js with
  | nil => rfl
  | cons r rest ih =>
      simp only [setJobState]
      by_cases hid : r.id = jid
      · have hfx : (r.id == x) = false := by
          simp only [beq_eq_false_iff_ne, ne_eq]
          omega
        rw [if_pos hid]
        simp [jobStateOf, List.find?, hfx]
      · rw [if_neg hid]
        simp only [jobStateOf, List.find?] at ih ⊢
        cases hx : (r.id == x) with
        | true => rfl
        | false => exact ih

theorem jobStateOf_appendLog (js : List JobInfo) (jid : Nat) (line : String) (x : Nat) :
    jobStateOf (appendLog js jid line) x = jobStateOf js x := by
  induction js with
  | nil => rfl
  | cons r rest ih =>
      simp only [appendLog]
      split <;> simp only [jobStateOf, List.find?] <;>
        cases hx : (r.id == x) <;> simp_all [jobStateOf]

theorem jobStateOf_append_ne (js : List JobInfo) (r : JobInfo) (x : Nat)
    (hne : r.id ≠ x) : jobStateOf (js ++ [r]) x = jobStateOf js x := by
  have hfx : (r.id == x) = false := by simp [hne]
  induction js with
  | nil => simp [jobStateOf, List.find?, hfx]
  | cons hd rest ih =>
      simp only [List.cons_append, jobStateOf, List.find?] at ih ⊢
      cases hx : (hd.id == x) with
      | true => rfl
      | false => exact ih

theorem jobStateOf_append_self (js : List JobInfo) (r : JobInfo)
    (hnone : jobStateOf js r.id = none) : jobStateOf (js ++ [r]) r.id = some r.state := by
  induction js with
  | nil => simp [jobStateOf, List.find?]
  | cons hd rest ih =>
      simp only [jobStateOf, List.find?, Option.map_eq_none] at hnone
      simp only [List.cons_append, jobStateOf, List.find?]
      cases hx : (hd.id == r.id) with
      | true => rw [hx] at hnone; simp at hnone
      | false =>
          rw [hx] at hnone
          exact ih hnone

theorem jobStateOf_mem_of_some (js : List JobInfo) (x : Nat) (s : JobState)
    (h : jobStateOf js x = some s) : ∃ r ∈ js, r.id = x ∧ r.state = s := by
  induction js with
  | nil => cases h
  | cons hd rest ih =>
      simp only [jobStateOf, List.find?] at h
      cases hx : (hd.id == x) with
      | true =>
          rw [hx] at h
          simp only [Option.map_some] at h
          exact ⟨hd, List.mem_cons_self hd rest, by simpa using hx, by injection h⟩
      | false =>
          rw [hx] at h
          obtain ⟨r, hr, hrx, hrs⟩ := ih h
          exact ⟨r, List.mem_cons_of_mem hd hr, hrx, hrs⟩

theorem jobStateOf_of_mem_nodup (js : List JobInfo) (r : JobInfo)
    (hnd : (js.map JobInfo.id).Nodup) (hr : r ∈ js) : jobStateOf js r.id = some r.state := by
  induction js with
  | nil => cases hr
  | cons hd rest ih =>
      rcases List.mem_cons.mp hr with h | h
      · subst h
        simp [jobStateOf, List.find?]
      · simp only [List.map_cons, List.nodup_cons] at hnd
        have hne : hd.id ≠ r.id := by
          intro he
          exact hnd.1 (he ▸ List.mem_map_of_mem JobInfo.id h)
        simp only [jobStateOf, List.find?]
        have : (hd.id == r.id) = false := by simp [hne]
        rw [this]
        exact ih hnd.2 h

theorem mem_setJobState_cases (js : List JobInfo) (jid : Nat) (s : JobState) (r' : JobInfo)
    (hnd : (js.map JobInfo.id).Nodup) (h : r' ∈ setJobState js jid s) :
    (r' ∈ js ∧ r'.id ≠ jid) ∨ (∃ r ∈ js, r.id = jid ∧ r' = { r with state := s }) := by
  induction js with
  | nil => cases h
  | cons hd rest ih =>
      simp only [List.map_cons, List.nodup_cons] at hnd
      simp only [setJobState] at h
      by_cases hid : hd.id = jid
      · rw [if_pos hid] at h
        rcases List.mem_cons.mp h with h | h
        · exact Or.inr ⟨hd, List.mem_cons_self hd rest, hid, h⟩
        · have hr'id : r'.id ≠ jid := by
            intro he
            exact hnd.1 (hid ▸ he ▸ List.mem_map_of_mem JobInfo.id h)
          exact Or.inl ⟨List.mem_cons_of_mem hd h, hr'id⟩
      · rw [if_neg hid] at h
        rcases List.mem_cons.mp h with h | h
        · subst h
          exact Or.inl ⟨List.mem_cons_self r' rest, hid⟩
        · rcases ih hnd.2 h with ⟨h1, h2⟩ | ⟨r, hr, hrj, hre⟩
          · exact Or.inl ⟨List.mem_cons_of_mem hd h1, h2⟩
          · exact Or.inr ⟨r, List.mem_cons_of_mem hd hr, hrj, hre⟩

/-! ## Lemmas about the task list -/

theorem catMap_append (f : Task → List Nat) (l₁ l₂ : List Task) :
    catMap f (l₁ ++ l₂) = catMap f l₁ ++ catMap f l₂ := by
  induction l₁ with
  | nil => rfl
  | cons t ts ih => simp [catMap, ih]

theorem natSum_append (f : Task → Nat) (l₁ l₂ : List Task) :
    natSum f (l₁ ++ l₂) = natSum f l₁ + natSum f l₂ := by
  induction l₁ with
  | nil => simp [natSum]
  | cons t ts ih => simp [natSum, ih, Nat.add_assoc]

theorem mem_catMap (f : Task → List Nat) (ts : List Task) (x : Nat) :
    x ∈ catMap f ts ↔ ∃ t ∈ ts, x ∈ f t := by
  induction ts with
  | nil => simp [catMap]
  | cons t ts ih => simp [catMap, ih, List.mem_cons]

theorem length_catMap_le (f : Task → List Nat) (g : Task → Nat)
    (hfg : ∀ t, (f t).length ≤ g t) (ts : List Task) :
    (catMap f ts).length ≤ natSum g ts := by
  induction ts with
  | nil => simp [catMap, natSum]
  | cons t ts ih =>
      simp only [catMap, natSum, List.length_append]
      have := hfg t
      omega

theorem get_set_decomp (l : List Task) : ∀ (i : Nat) (t : Task), l.get? i = some t →
    ∃ l₁ l₂, l = l₁ ++ t :: l₂ ∧ (∀ t', l.set i t' = l₁ ++ t' :: l₂) ∧
      l.eraseIdx i = l₁ ++ l₂ := by
  induction l with
  | nil => intro i t h; cases i <;> cases h
  | cons hd tl ih =>
      intro i t h
      cases i with
      | zero =>
          injection h with h'
          subst h'
          exact ⟨[], tl, rfl, fun t' => rfl, rfl⟩
      | succ n =>
          obtain ⟨l₁, l₂, he, hs, hr⟩ := ih n t h
          refine ⟨hd :: l₁, l₂, ?_, ?_, ?_⟩
          · rw [List.cons_append, ← he]
          · intro t'
            show hd :: tl.set n t' = hd :: l₁ ++ t' :: l₂
            rw [hs t']
            rfl
          · show hd :: tl.eraseIdx n = (hd :: l₁) ++ l₂
            rw [hr]
            rfl

/-! ## Nodup bookkeeping for `allRef` -/

theorem nodup_parts_disjoint {A B C D : List Nat}
    (h : (A ++ (B ++ (C ++ D))).Nodup) :
    ∀ x ∈ C, x ∉ A ∧ x ∉ B ∧ x ∉ D := by
  simp only [List.nodup_append] at h
  obtain ⟨hA, ⟨hB, ⟨hC, hD, hCD⟩, hBCD⟩, hABCD⟩ := h
  intro x hx
  exact ⟨fun hxA => hABCD hxA (by simp [hx]), fun hxB => hBCD hxB (by simp [hx]),
    fun hxD => hCD hx hxD⟩

theorem nodup_replace_mid {A B C C' D : List Nat}
    (h : (A ++ (B ++ (C ++ D))).Nodup) (hsub : C' ⊆ C) (hnod : C'.Nodup) :
    (A ++ (B ++ (C' ++ D))).Nodup := by
  simp only [List.nodup_append, List.Disjoint] at h ⊢
  obtain ⟨hA, ⟨hB, ⟨hC, hD, hCD⟩, hBCD⟩, hABCD⟩ := h
  refine ⟨hA, ⟨hB, ⟨hnod, hD, ?_⟩, ?_⟩, ?_⟩
  · intro x hx hx'
    exact hCD (hsub hx) hx'
  · intro x hx hx'
    refine hBCD hx ?_
    simp only [List.mem_append] at hx' ⊢
    rcases hx' with hx' | hx'
    · exact Or.inl (hsub hx')
    · exact Or.inr hx'
  · intro x hx hx'
    refine hABCD hx ?_
    simp only [List.mem_append] at hx' ⊢
    rcases hx' with hx' | hx' | hx'
    · exact Or.inl hx'
    · exact Or.inr (Or.inl (hsub hx'))
    · exact Or.inr (Or.inr hx')

theorem nodup_move_to_queue {A B D : List Nat} {x : Nat}
    (h : (A ++ (B ++ (x :: D))).Nodup) :
    ((A ++ [x]) ++ (B ++ D)).Nodup := by
  have hmid : (B ++ x :: D).Perm (x :: (B ++ D)) := List.perm_middle
  have hperm : (A ++ (B ++ x :: D)).Perm (A ++ x :: (B ++ D)) :=
    List.Perm.append_left A hmid
  have heq : A ++ x :: (B ++ D) = (A ++ [x]) ++ (B ++ D) := by
    rw [List.append_assoc]
    rfl
  rw [heq] at hperm
  exact hperm.nodup h

theorem nodup_move_from_queue {Q B D : List Nat} {x : Nat}
    (h : ((x :: Q) ++ (B ++ D)).Nodup) :
    (Q ++ (B ++ (x :: D))).Nodup := by
  have hmid : (B ++ x :: D).Perm (x :: (B ++ D)) := List.perm_middle
  have h1 : (Q ++ (B ++ x :: D)).Perm (Q ++ x :: (B ++ D)) :=
    List.Perm.append_left Q hmid
  have h2 : (Q ++ x :: (B ++ D)).Perm (x :: (Q ++ (B ++ D))) := List.perm_middle
  have hall : (Q ++ (B ++ x :: D)).Perm ((x :: Q) ++ (B ++ D)) := h1.trans h2
  exact hall.symm.nodup h

theorem nodup_append_fresh {A B : List Nat} {x : Nat}
    (h : (A ++ B).Nodup) (hx : x ∉ A ++ B) :
    (A ++ (B ++ [x])).Nodup := by
  have h1 : (x :: (A ++ B)).Nodup := List.nodup_cons.mpr ⟨hx, h⟩
  have hmid : ((A ++ B) ++ x :: ([] : List Nat)).Perm (x :: ((A ++ B) ++ [])) :=
    List.perm_middle
  simp only [List.append_nil] at hmid
  have heq : (A ++ B) ++ [x] = A ++ (B ++ [x]) := List.append_assoc A B [x]
  rw [heq] at hmid
  exact hmid.symm.nodup h1

/-! ## Frame lemmas for the invariant -/

theorem TaskOK_of_state_eq {js js' : List JobInfo} (t : Task)
    (hstates : ∀ x ∈ Task.refIds t, jobStateOf js' x = jobStateOf js x)
    (hok : TaskOK js t) : TaskOK js' t := by
  cases t with
  | submit j pc =>
      have h := hstates j.id (by cases pc <;> simp [Task.refIds])
      cases pc <;> simp only [TaskOK] at hok ⊢ <;> rw [h] <;> exact hok
  | sup g pc =>
      cases pc <;> simp only [TaskOK] at hok ⊢ <;>
        first
          | trivial
          | (rename_i v
             rw [hstates v (by simp [Task.refIds])]
             exact hok)
          | (rename_i v
             rw [hstates v.id (by simp [Task.refIds])]
             exact hok)
          | (rename_i v w
             rw [hstates v (by simp [Task.refIds])]
             exact hok)

theorem tasksOK_frame {js : List JobInfo} {tid : Nat} {s : JobState} (ts : List Task)
    (hok : ∀ t₂ ∈ ts, TaskOK js t₂)
    (hne : ∀ t₂ ∈ ts, ∀ x ∈ Task.refIds t₂, x ≠ tid) :
    ∀ t₂ ∈ ts, TaskOK (setJobState js tid s) t₂ :=
  fun t₂ ht₂ => TaskOK_of_state_eq t₂
    (fun x hx => jobStateOf_setJobState_ne js tid x s (hne t₂ ht₂ x hx)) (hok t₂ ht₂)

theorem catMap_middle (f : Task → List Nat) (l₁ : List Task) (t : Task) (l₂ : List Task) :
    catMap f (l₁ ++ t :: l₂) = catMap f l₁ ++ (f t ++ catMap f l₂) := by
  rw [catMap_append]
  rfl

theorem natSum_middle (f : Task → Nat) (l₁ : List Task) (t : Task) (l₂ : List Task) :
    natSum f (l₁ ++ t :: l₂) = natSum f l₁ + (f t + natSum f l₂) := by
  rw [natSum_append]
  rfl

theorem mem_parts {A B C D : List Nat} {x : Nat} :
    x ∈ A ++ (B ++ (C ++ D)) ↔ x ∈ A ∨ x ∈ B ∨ x ∈ C ∨ x ∈ D := by
  simp [List.mem_append]

theorem ownedIds_length_le_busyContrib (t : Task) :
    (Task.ownedIds t).length ≤ Task.busyContrib t := by
  cases t with
  | submit j pc => cases pc <;> simp [Task.ownedIds, Task.busyContrib]
  | sup g pc => cases pc <;> simp [Task.ownedIds, Task.busyContrib]

theorem ownedIds_length_le_heldCount (t : Task) :
    (Task.ownedIds t).length ≤ Task.heldCount t := by
  cases t with
  | submit j pc => cases pc <;> simp [Task.ownedIds, Task.heldCount]
  | sup g pc => cases pc <;> simp [Task.ownedIds, Task.heldCount]

theorem ownedIds_subset_refIds (t : Task) : Task.ownedIds t ⊆ Task.refIds t := by
  cases t with
  | submit j pc => cases pc <;> simp [Task.ownedIds, Task.refIds]
  | sup g pc => cases pc <;> simp [Task.ownedIds, Task.refIds]

theorem ownedIds_sublist_refIds (t : Task) :
    List.Sublist (Task.ownedIds t) (Task.refIds t) := by
  cases t with
  | submit j pc =>
      cases pc <;> first | exact List.Sublist.refl _ | exact List.nil_sublist _
  | sup g pc =>
      cases pc <;> first | exact List.Sublist.refl _ | exact List.nil_sublist _

theorem catMap_owned_subset_ref (ts : List Task) :
    catMap Task.ownedIds ts ⊆ catMap Task.refIds ts := by
  intro x hx
  rw [mem_catMap] at hx ⊢
  obtain ⟨t, ht, hxt⟩ := hx
  exact ⟨t, ht, ownedIds_subset_refIds t hxt⟩

theorem catMap_owned_nodup (ts : List Task) (h : (catMap Task.refIds ts).Nodup) :
    (catMap Task.ownedIds ts).Nodup := by
  induction ts with
  | nil => exact List.nodup_nil
  | cons t ts ih =>
      simp only [catMap, List.nodup_append] at h ⊢
      refine ⟨h.1.sublist (ownedIds_sublist_refIds t), ih h.2.1, ?_⟩
      intro x hx hx'
      exact h.2.2 (ownedIds_subset_refIds t hx) (catMap_owned_subset_ref ts hx')

theorem ownedAll_nodup {S : Nat} {c : Config} (inv : Inv S c) : (ownedAll c).Nodup := by
  have h := inv.refNodup
  simp only [allRef, List.nodup_append] at h
  exact catMap_owned_nodup c.tasks h.2.1

theorem countRunning_le_owned {S : Nat} {c : Config} (inv : Inv S c) :
    countRunning c.jobs ≤ (ownedAll c).length := by
  have hR : countRunning c.jobs =
      ((c.jobs.filter (fun r => match r.state with
        | .running _ => true | _ => false)).map JobInfo.id).length := by
    simp [countRunning]
  rw [hR]
  apply List.Subperm.length_le
  apply List.subperm_of_subset
  · exact inv.jobsNodup.sublist ((List.filter_sublist c.jobs).map JobInfo.id)
  · intro x hx
    simp only [List.mem_map, List.mem_filter] at hx
    obtain ⟨r, ⟨hr, hrun⟩, hid⟩ := hx
    have hex : ∃ g, r.state = .running g := by
      cases hs : r.state with
      | queued => rw [hs] at hrun; simp at hrun
      | running g => exact ⟨g, rfl⟩
      | completed => rw [hs] at hrun; simp at hrun
      | failed => rw [hs] at hrun; simp at hrun
    exact hid ▸ inv.runningOwned r hr hex

theorem owned_le_busy {S : Nat} {c : Config} (inv : Inv S c) :
    (ownedAll c).length ≤ c.busy := by
  rw [inv.busyEq]
  exact length_catMap_le Task.ownedIds Task.busyContrib ownedIds_length_le_busyContrib c.tasks

theorem owned_le_held {S : Nat} {c : Config} (inv : Inv S c) :
    (ownedAll c).length + c.pool.length ≤ S := by
  have h := length_catMap_le Task.ownedIds Task.heldCount ownedIds_length_le_heldCount c.tasks
  have h2 := inv.slotConserve
  unfold ownedAll
  omega

theorem jobStateOf_none_iff (js : List JobInfo) (x : Nat) :
    jobStateOf js x = none ↔ ∀ r ∈ js, r.id ≠ x := by
  simp [jobStateOf, Option.map_eq_none, List.find?_eq_none]

theorem mem_appendLog_cases (js : List JobInfo) (jid : Nat) (line : String) (r' : JobInfo)
    (h : r' ∈ appendLog js jid line) : ∃ r ∈ js, r'.id = r.id ∧ r'.state = r.state := by
  induction js with
  | nil => cases h
  | cons hd rest ih =>
      simp only [appendLog] at h
      split at h
      · rcases List.mem_cons.mp h with h | h
        · exact ⟨hd, List.mem_cons_self hd rest, by rw [h], by rw [h]⟩
        · exact ⟨r', List.mem_cons_of_mem hd h, rfl, rfl⟩
      · rcases List.mem_cons.mp h with h | h
        · exact ⟨hd, List.mem_cons_self hd rest, by rw [h], by rw [h]⟩
        · obtain ⟨r, hr, h1, h2⟩ := ih h
          exact ⟨r, List.mem_cons_of_mem hd hr, h1, h2⟩

theorem ids_lt_of_map_eq {js js' : List JobInfo} {n : Nat}
    (hmap : js'.map JobInfo.id = js.map JobInfo.id)
    (h : ∀ r ∈ js, r.id < n) : ∀ r' ∈ js', r'.id < n := by
  intro r' hr'
  have hmem : r'.id ∈ js'.map JobInfo.id := List.mem_map_of_mem JobInfo.id hr'
  rw [hmap] at hmem
  obtain ⟨r, hr, hid⟩ := List.mem_map.mp hmem
  exact hid ▸ h r hr

theorem mem_allRef_of_task {c : Config} {t : Task} {x : Nat}
    (ht : t ∈ c.tasks) (hx : x ∈ Task.refIds t) : x ∈ allRef c := by
  simp only [allRef, List.mem_append]
  exact Or.inr ((mem_catMap Task.refIds c.tasks x).mpr ⟨t, ht, hx⟩)

theorem mem_allRef_of_queue {c : Config} {js : JobSpec}
    (hq : js ∈ c.queue) : js.id ∈ allRef c := by
  simp only [allRef, List.mem_append]
  exact Or.inl (List.mem_map_of_mem JobSpec.id hq)

/-- Preservation of the invariant under a step that replaces the task at
index `i` by `t'` without touching the job records or the queue; the free
pool, busy counter and pid map may change as long as the slot and busy
accounting matches the task's transition. -/
theorem inv_replace {S : Nat} {c : Config} (inv : Inv S c) {i : Nat} {t t' : Task}
    (hg : c.tasks.get? i = some t)
    (href : Task.refIds t' ⊆ Task.refIds t) (hrefnd : (Task.refIds t').Nodup)
    (hown : Task.ownedIds t' = Task.ownedIds t)
    (hok : TaskOK c.jobs t')
    (pool' : List Nat) (busy' : Nat) (run' : List (Nat × Nat))
    (hpool : pool'.length + Task.heldCount t' = c.pool.length + Task.heldCount t)
    (hbusy : busy' + Task.busyContrib t = c.busy + Task.busyContrib t') :
    Inv S { c with tasks := c.tasks.set i t', pool := pool', busy := busy',
                   running := run' } := by
  obtain ⟨l₁, l₂, hts, hset, hdel⟩ := get_set_decomp c.tasks i t hg
  have hshape : allRef c = c.queue.map JobSpec.id ++
      (catMap Task.refIds l₁ ++ (Task.refIds t ++ catMap Task.refIds l₂)) := by
    rw [allRef, hts, catMap_middle]
  have hnd := inv.refNodup
  rw [hshape] at hnd
  refine ⟨?_, ?_, ?_, ?_, ?_, ?_, ?_, ?_, ?_⟩
  · exact inv.jobsNodup
  · exact inv.jobsLt
  · -- refLt
    intro x hx
    simp only [allRef, hset t', catMap_middle] at hx
    rw [mem_parts] at hx
    apply inv.refLt
    rw [hshape, mem_parts]
    tauto
  · -- refNodup
    show (allRef _).Nodup
    simp only [allRef, hset t', catMap_middle]
    exact nodup_replace_mid hnd href hrefnd
  · -- queueQueued
    exact inv.queueQueued
  · -- tasksOK
    intro t₂ ht₂
    rw [hset t'] at ht₂
    rcases List.mem_append.mp ht₂ with h₂ | h₂
    · exact inv.tasksOK t₂ (by rw [hts]; exact List.mem_append_left _ h₂)
    · rcases List.mem_cons.mp h₂ with h₂ | h₂
      · exact h₂ ▸ hok
      · exact inv.tasksOK t₂ (by
          rw [hts]
          exact List.mem_append_right _ (List.mem_cons_of_mem t h₂))
  · -- runningOwned
    intro r hr hrun
    have hold := inv.runningOwned r hr hrun
    show r.id ∈ ownedAll _
    simp only [ownedAll, hset t', catMap_middle, hown]
    unfold ownedAll at hold
    rw [hts, catMap_middle] at hold
    exact hold
  · -- slotConserve
    have h := inv.slotConserve
    rw [hts, natSum_middle] at h
    dsimp only
    rw [hset t', natSum_middle]
    omega
  · -- busyEq
    have h := inv.busyEq
    rw [hts, natSum_middle] at h
    dsimp only
    rw [hset t', natSum_middle]
    omega

/-- Preservation of the invariant under a step in which the task at index
`i` publishes a new state `s` for the job `tid` it references, moving its
own program counter from `t` to `t'`.  The two `hcase` branches are the
publication of `Running` (the task becomes the owner) and of a terminal
state (the task ceases to be the owner). -/
theorem inv_write {S : Nat} {c : Config} (inv : Inv S c) {i : Nat} {t t' : Task} {tid : Nat}
    {s : JobState}
    (hg : c.tasks.get? i = some t)
    (htid : Task.refIds t = [tid])
    (href : Task.refIds t' = [tid] ∨ Task.refIds t' = [])
    (hheld : Task.heldCount t' = Task.heldCount t)
    (hbusy : Task.busyContrib t' = Task.busyContrib t)
    (hok : TaskOK (setJobState c.jobs tid s) t')
    (hcase :
      ((∃ g, s = .running g) ∧ Task.ownedIds t = [] ∧ Task.ownedIds t' = [tid]) ∨
      ((∀ g, s ≠ .running g) ∧ Task.ownedIds t = [tid] ∧ Task.ownedIds t' = [])) :
    Inv S { c with jobs := setJobState c.jobs tid s, tasks := c.tasks.set i t' } := by
  obtain ⟨l₁, l₂, hts, hset, hdel⟩ := get_set_decomp c.tasks i t hg
  have hshape : allRef c = c.queue.map JobSpec.id ++
      (catMap Task.refIds l₁ ++ (Task.refIds t ++ catMap Task.refIds l₂)) := by
    rw [allRef, hts, catMap_middle]
  have hnd := inv.refNodup
  rw [hshape] at hnd
  have hdt := nodup_parts_disjoint hnd tid (by rw [htid]; exact List.mem_singleton_self tid)
  have href' : Task.refIds t' ⊆ Task.refIds t := by
    rcases href with h | h <;> rw [h, htid] <;> simp
  have hrefnd' : (Task.refIds t').Nodup := by
    rcases href with h | h <;> rw [h] <;> simp
  refine ⟨?_, ?_, ?_, ?_, ?_, ?_, ?_, ?_, ?_⟩
  · dsimp only
    rw [setJobState_map_id]
    exact inv.jobsNodup
  · dsimp only
    exact ids_lt_of_map_eq (setJobState_map_id c.jobs tid s) inv.jobsLt
  · -- refLt
    intro x hx
    simp only [allRef, hset t', catMap_middle] at hx
    rw [mem_parts] at hx
    apply inv.refLt
    rw [hshape, mem_parts]
    rcases hx with hx | hx | hx | hx
    · exact Or.inl hx
    · exact Or.inr (Or.inl hx)
    · exact Or.inr (Or.inr (Or.inl (href' hx)))
    · exact Or.inr (Or.inr (Or.inr hx))
  · -- refNodup
    show (allRef _).Nodup
    simp only [allRef, hset t', catMap_middle]
    exact nodup_replace_mid hnd href' hrefnd'
  · -- queueQueued
    intro q hq
    dsimp only at hq ⊢
    have hqid : q.id ≠ tid := by
      intro he
      exact hdt.1 (he ▸ List.mem_map_of_mem JobSpec.id hq)
    rw [jobStateOf_setJobState_ne c.jobs tid q.id s hqid]
    exact inv.queueQueued q hq
  · -- tasksOK
    intro t₂ ht₂
    dsimp only at ht₂ ⊢
    rw [hset t'] at ht₂
    rcases List.mem_append.mp ht₂ with h₂ | h₂
    · refine TaskOK_of_state_eq t₂ ?_ (inv.tasksOK t₂ (by rw [hts]; exact List.mem_append_left _ h₂))
      intro x hx
      have hxC : x ∈ catMap Task.refIds l₁ := (mem_catMap _ l₁ x).mpr ⟨t₂, h₂, hx⟩
      have hxne : x ≠ tid := fun he => hdt.2.1 (he ▸ hxC)
      exact jobStateOf_setJobState_ne c.jobs tid x s hxne
    · rcases List.mem_cons.mp h₂ with h₂ | h₂
      · exact h₂ ▸ hok
      · refine TaskOK_of_state_eq t₂ ?_ (inv.tasksOK t₂ (by
          rw [hts]
          exact List.mem_append_right _ (List.mem_cons_of_mem t h₂)))
        intro x hx
        have hxC : x ∈ catMap Task.refIds l₂ := (mem_catMap _ l₂ x).mpr ⟨t₂, h₂, hx⟩
        have hxne : x ≠ tid := fun he => hdt.2.2 (he ▸ hxC)
        exact jobStateOf_setJobState_ne c.jobs tid x s hxne
  · -- runningOwned
    intro r' hr' hrun
    dsimp only at hr' ⊢
    show r'.id ∈ ownedAll _
    simp only [ownedAll, hset t', catMap_middle]
    rcases mem_setJobState_cases c.jobs tid s r' inv.jobsNodup hr' with
      ⟨hrmem, hrne⟩ | ⟨r, hrmem, hrtid, hre⟩
    · have hold := inv.runningOwned r' hrmem hrun
      unfold ownedAll at hold
      rw [hts, catMap_middle] at hold
      rcases hcase with ⟨_, hot, hot'⟩ | ⟨_, hot, hot'⟩
      · rw [hot] at hold
        rw [hot']
        simp only [List.mem_append] at hold ⊢
        rcases hold with h | h
        · exact Or.inl h
        · rcases h with h | h
          · cases h
          · exact Or.inr (Or.inr h)
      · rw [hot] at hold
        rw [hot']
        simp only [List.mem_append, List.mem_singleton] at hold ⊢
        rcases hold with h | h | h
        · exact Or.inl h
        · exact absurd h hrne
        · exact Or.inr (Or.inr h)
    · subst hre
      rcases hcase with ⟨⟨g, hs⟩, hot, hot'⟩ | ⟨hns, hot, hot'⟩
      · rw [hot']
        simp only [List.mem_append, List.mem_singleton]
        exact Or.inr (Or.inl hrtid)
      · obtain ⟨g, hgs⟩ := hrun
        exact absurd hgs (hns g)
  · -- slotConserve
    have h := inv.slotConserve
    rw [hts, natSum_middle] at h
    dsimp only
    rw [hset t', natSum_middle, hheld]
    omega
  · -- busyEq
    have h := inv.busyEq
    rw [hts, natSum_middle] at h
    dsimp only
    rw [hset t', natSum_middle, hbusy]
    omega

/-- Preservation of the invariant when the finished task at index `i`
(which references no job and holds no slot any more) is removed. -/
theorem inv_remove {S : Nat} {c : Config} (inv : Inv S c) {i : Nat} {t : Task}
    (hg : c.tasks.get? i = some t)
    (href : Task.refIds t = [])
    (hown : Task.ownedIds t = [])
    (hheld : Task.heldCount t = 0)
    (busy' : Nat)
    (hbusy : busy' + Task.busyContrib t = c.busy) :
    Inv S { c with tasks := c.tasks.eraseIdx i, busy := busy' } := by
  obtain ⟨l₁, l₂, hts, hset, hdel⟩ := get_set_decomp c.tasks i t hg
  have heqref : allRef { c with tasks := c.tasks.eraseIdx i, busy := busy' } = allRef c := by
    simp only [allRef, hdel, catMap_append]
    rw [hts, catMap_middle, href]
    rfl
  have heqown : ownedAll { c with tasks := c.tasks.eraseIdx i, busy := busy' }
      = ownedAll c := by
    simp only [ownedAll, hdel, catMap_append]
    rw [hts, catMap_middle, hown]
    rfl
  refine ⟨inv.jobsNodup, inv.jobsLt, ?_, ?_, inv.queueQueued, ?_, ?_, ?_, ?_⟩
  · intro x hx
    rw [heqref] at hx
    exact inv.refLt x hx
  · rw [heqref]
    exact inv.refNodup
  · intro t₂ ht₂
    dsimp only at ht₂
    rw [hdel] at ht₂
    rcases List.mem_append.mp ht₂ with h₂ | h₂
    · exact inv.tasksOK t₂ (by rw [hts]; exact List.mem_append_left _ h₂)
    · exact inv.tasksOK t₂ (by
        rw [hts]
        exact List.mem_append_right _ (List.mem_cons_of_mem t h₂))
  · intro r hr hrun
    rw [heqown]
    exact inv.runningOwned r hr hrun
  · have h := inv.slotConserve
    rw [hts, natSum_middle] at h
    dsimp only
    rw [hdel, natSum_append]
    omega
  · have h := inv.busyEq
    rw [hts, natSum_middle] at h
    dsimp only
    rw [hdel, natSum_append]
    omega

/-- Every enabled event preserves the invariant. -/
theorem inv_step {S : Nat} {c c' : Config} {e : Evt}
    (h : applyEvt c e = some c') (inv : Inv S c) : Inv S c' := by
  cases e with
  | submitStart cmd =>
      simp only [applyEvt] at h
      cases h
      have hfresh : (c.nextId : Nat) ∉ allRef c := fun hmem =>
        absurd (inv.refLt c.nextId hmem) (lt_irrefl c.nextId)
      refine ⟨inv.jobsNodup, ?_, ?_, ?_, inv.queueQueued, ?_, ?_, ?_, ?_⟩
      · exact fun r hr => Nat.lt_succ_of_lt (inv.jobsLt r hr)
      · intro x hx
        simp only [allRef, catMap_append, catMap, Task.refIds, List.append_nil,
          List.mem_append, List.mem_singleton] at hx
        rcases hx with hx | hx | hx
        · exact Nat.lt_succ_of_lt (inv.refLt x (by
            simp only [allRef, List.mem_append]; exact Or.inl hx))
        · exact Nat.lt_succ_of_lt (inv.refLt x (by
            simp only [allRef, List.mem_append]; exact Or.inr hx))
        · exact hx ▸ Nat.lt_succ_self c.nextId
      · show (allRef _).Nodup
        simp only [allRef, catMap_append, catMap, Task.refIds, List.append_nil]
        exact nodup_append_fresh inv.refNodup hfresh
      · intro t₂ ht₂
        dsimp only at ht₂
        rcases List.mem_append.mp ht₂ with h₂ | h₂
        · exact inv.tasksOK t₂ h₂
        · rcases List.mem_singleton.mp h₂ with rfl
          show jobStateOf c.jobs c.nextId = none
          exact (jobStateOf_none_iff c.jobs c.nextId).mpr
            (fun r hr => Nat.ne_of_lt (inv.jobsLt r hr))
      · intro r hr hrun
        show r.id ∈ ownedAll _
        simp only [ownedAll, catMap_append, catMap, Task.ownedIds, List.append_nil,
          List.mem_append]
        exact inv.runningOwned r hr hrun
      · have hc := inv.slotConserve
        dsimp only
        rw [natSum_append]
        simp only [natSum, Task.heldCount]
        omega
      · have hc := inv.busyEq
        dsimp only
        rw [natSum_append]
        simp only [natSum, Task.busyContrib]
        omega
  | subPush i =>
      simp only [applyEvt] at h
      split at h
      case _ j hg =>
        cases h
        obtain ⟨l₁, l₂, hts, hset, hdel⟩ := get_set_decomp c.tasks i _ hg
        have hokt := inv.tasksOK _ (List.get?_mem hg)
        simp only [TaskOK] at hokt
        have hni : ∀ r' ∈ c.jobs, r'.id ≠ j.id := (jobStateOf_none_iff _ _).mp hokt
        have hshape : allRef c = c.queue.map JobSpec.id ++
            (catMap Task.refIds l₁ ++ (Task.refIds (Task.submit j .push) ++
              catMap Task.refIds l₂)) := by
          rw [allRef, hts, catMap_middle]
        have hnd := inv.refNodup
        rw [hshape] at hnd
        have hdt := nodup_parts_disjoint hnd j.id (by simp [Task.refIds])
        refine ⟨?_, ?_, ?_, ?_, ?_, ?_, ?_, ?_, ?_⟩
        · dsimp only
          rw [List.map_append]
          refine List.nodup_append.mpr ⟨inv.jobsNodup, by simp, ?_⟩
          intro x hx hx'
          simp only [List.map_cons, List.map_nil, List.mem_singleton] at hx'
          obtain ⟨r', hr', hid⟩ := List.mem_map.mp hx
          exact hni r' hr' (hid.trans hx')
        · intro r' hr'
          dsimp only at hr'
          rcases List.mem_append.mp hr' with h₂ | h₂
          · exact inv.jobsLt r' h₂
          · rcases List.mem_singleton.mp h₂ with rfl
            exact inv.refLt j.id (mem_allRef_of_task (List.get?_mem hg) (by simp [Task.refIds]))
        · intro x hx
          simp only [allRef, hset _, catMap_middle] at hx
          rw [mem_parts] at hx
          apply inv.refLt
          rw [hshape, mem_parts]
          simp only [Task.refIds] at hx ⊢
          tauto
        · show (allRef _).Nodup
          simp only [allRef, hset _, catMap_middle]
          exact nodup_replace_mid hnd (by simp [Task.refIds]) (by simp [Task.refIds])
        · intro q hq
          dsimp only at hq ⊢
          have hqid : j.id ≠ q.id := by
            intro he
            refine hdt.1 ?_
            rw [he]
            exact List.mem_map_of_mem JobSpec.id hq
          rw [jobStateOf_append_ne c.jobs _ q.id hqid]
          exact inv.queueQueued q hq
        · intro t₂ ht₂
          dsimp only at ht₂ ⊢
          rw [hset _] at ht₂
          rcases List.mem_append.mp ht₂ with h₂ | h₂
          · refine TaskOK_of_state_eq t₂ ?_
              (inv.tasksOK t₂ (by rw [hts]; exact List.mem_append_left _ h₂))
            intro x hx
            have hxC : x ∈ catMap Task.refIds l₁ := (mem_catMap _ l₁ x).mpr ⟨t₂, h₂, hx⟩
            refine jobStateOf_append_ne c.jobs _ x ?_
            intro he
            refine hdt.2.1 ?_
            rw [show j.id = x from he]
            exact hxC
          · rcases List.mem_cons.mp h₂ with rfl | h₂
            · show jobStateOf (c.jobs ++ [⟨j.id, j.cmd, .queued, []⟩]) j.id = some .queued
              exact jobStateOf_append_self c.jobs _ hokt
            · refine TaskOK_of_state_eq t₂ ?_
                (inv.tasksOK t₂ (by
                  rw [hts]
                  exact List.mem_append_right _ (List.mem_cons_of_mem _ h₂)))
              intro x hx
              have hxC : x ∈ catMap Task.refIds l₂ := (mem_catMap _ l₂ x).mpr ⟨t₂, h₂, hx⟩
              refine jobStateOf_append_ne c.jobs _ x ?_
              intro he
              refine hdt.2.2 ?_
              rw [show j.id = x from he]
              exact hxC
        · intro r' hr' hrun
          dsimp only at hr' ⊢
          show r'.id ∈ ownedAll _
          simp only [ownedAll, hset _, catMap_middle]
          rcases List.mem_append.mp hr' with h₂ | h₂
          · have hold := inv.runningOwned r' h₂ hrun
            unfold ownedAll at hold
            rw [hts, catMap_middle] at hold
            simpa [Task.ownedIds] using hold
          · rcases List.mem_singleton.mp h₂ with rfl
            obtain ⟨g, hgs⟩ := hrun
            cases hgs
        · have hc := inv.slotConserve
          rw [hts, natSum_middle] at hc
          dsimp only
          rw [hset _, natSum_middle]
          simp only [Task.heldCount] at hc ⊢
          omega
        · have hc := inv.busyEq
          rw [hts, natSum_middle] at hc
          dsimp only
          rw [hset _, natSum_middle]
          simp only [Task.busyContrib] at hc ⊢
          omega
      case _ => cases h
  | subAcquire i =>
      simp only [applyEvt] at h
      split at h
      case _ j hg =>
        cases hp : c.pool with
        | cons g ps =>
            rw [hp] at h
            cases h
            apply inv_replace inv hg
            · simp [Task.refIds]
            · simp [Task.refIds]
            · simp [Task.ownedIds]
            · have hokt := inv.tasksOK _ (List.get?_mem hg)
              simpa [TaskOK] using hokt
            · simp [Task.heldCount, hp]
            · simp [Task.busyContrib]
        | nil =>
            rw [hp] at h
            cases h
            apply inv_replace inv hg
            · simp [Task.refIds]
            · simp [Task.refIds]
            · simp [Task.ownedIds]
            · have hokt := inv.tasksOK _ (List.get?_mem hg)
              simpa [TaskOK] using hokt
            · simp [Task.heldCount, hp]
            · simp [Task.busyContrib]
      case _ => cases h
  | subIncBusy i =>
      simp only [applyEvt] at h
      split at h
      case _ j g hg =>
        cases h
        apply inv_replace inv hg
        · simp [Task.refIds]
        · simp [Task.refIds]
        · simp [Task.ownedIds]
        · have hokt := inv.tasksOK _ (List.get?_mem hg)
          simpa [TaskOK] using hokt
        · simp [Task.heldCount]
        · simp [Task.busyContrib]
      case _ => cases h
  | subSetRunning i =>
      simp only [applyEvt] at h
      split at h
      case _ j g hg =>
        cases h
        apply inv_write inv hg
        · simp [Task.refIds]
        · exact Or.inl (by simp [Task.refIds])
        · simp [Task.heldCount]
        · simp [Task.busyContrib]
        · have hokt := inv.tasksOK _ (List.get?_mem hg)
          simp only [TaskOK] at hokt ⊢
          rw [jobStateOf_setJobState_self, hokt]
          rfl
        · exact Or.inl ⟨⟨g, rfl⟩, by simp [Task.ownedIds], by simp [Task.ownedIds]⟩
      case _ => cases h
  | subStartTask i =>
      simp only [applyEvt] at h
      split at h
      case _ j g hg =>
        cases h
        apply inv_replace inv hg
        · simp [Task.refIds]
        · simp [Task.refIds]
        · simp [Task.ownedIds]
        · have hokt := inv.tasksOK _ (List.get?_mem hg)
          simpa [TaskOK] using hokt
        · simp [Task.heldCount]
        · simp [Task.busyContrib]
      case _ => cases h
  | subEnqueue i =>
      simp only [applyEvt] at h
      split at h
      case _ j hg =>
        cases h
        obtain ⟨l₁, l₂, hts, hset, hdel⟩ := get_set_decomp c.tasks i _ hg
        have hokt := inv.tasksOK _ (List.get?_mem hg)
        simp only [TaskOK] at hokt
        have hshape : allRef c = c.queue.map JobSpec.id ++
            (catMap Task.refIds l₁ ++ (Task.refIds (Task.submit j .enqueue) ++
              catMap Task.refIds l₂)) := by
          rw [allRef, hts, catMap_middle]
        have hnd := inv.refNodup
        rw [hshape] at hnd
        refine ⟨inv.jobsNodup, inv.jobsLt, ?_, ?_, ?_, ?_, ?_, ?_, ?_⟩
        · intro x hx
          simp only [allRef, hdel, catMap_append, List.map_append, List.mem_append,
            List.map_cons, List.map_nil, List.mem_singleton] at hx
          apply inv.refLt
          rw [hshape, mem_parts]
          simp only [Task.refIds, List.mem_singleton]
          tauto
        · show (allRef _).Nodup
          simp only [allRef, hdel, catMap_append, List.map_append]
          exact nodup_move_to_queue hnd
        · intro q hq
          dsimp only at hq ⊢
          rcases List.mem_append.mp hq with h₂ | h₂
          · exact inv.queueQueued q h₂
          · rcases List.mem_singleton.mp h₂ with rfl
            exact hokt
        · intro t₂ ht₂
          dsimp only at ht₂ ⊢
          rw [hdel] at ht₂
          rcases List.mem_append.mp ht₂ with h₂ | h₂
          · exact inv.tasksOK t₂ (by rw [hts]; exact List.mem_append_left _ h₂)
          · exact inv.tasksOK t₂ (by
              rw [hts]
              exact List.mem_append_right _ (List.mem_cons_of_mem _ h₂))
        · intro r' hr' hrun
          dsimp only at hr' ⊢
          have hold := inv.runningOwned r' hr' hrun
          show r'.id ∈ ownedAll _
          simp only [ownedAll, hdel, catMap_append]
          unfold ownedAll at hold
          rw [hts, catMap_middle] at hold
          simpa [Task.ownedIds] using hold
        · have hc := inv.slotConserve
          rw [hts, natSum_middle] at hc
          dsimp only
          rw [hdel, natSum_append]
          simp only [Task.heldCount] at hc
          omega
        · have hc := inv.busyEq
          rw [hts, natSum_middle] at hc
          dsimp only
          rw [hdel, natSum_append]
          simp only [Task.busyContrib] at hc
          omega
      case _ => cases h
  | spawnOk i pid =>
      simp only [applyEvt] at h
      split at h
      case _ g j hg =>
        cases h
        apply inv_replace inv hg
        · simp [Task.refIds]
        · simp [Task.refIds]
        · simp [Task.ownedIds]
        · have hokt := inv.tasksOK _ (List.get?_mem hg)
          simpa [TaskOK] using hokt
        · simp [Task.heldCount]
        · simp [Task.busyContrib]
      case _ g j hg =>
        cases h
        apply inv_replace inv hg
        · simp [Task.refIds]
        · simp [Task.refIds]
        · simp [Task.ownedIds]
        · have hokt := inv.tasksOK _ (List.get?_mem hg)
          simpa [TaskOK] using hokt
        · simp [Task.heldCount]
        · simp [Task.busyContrib]
      case _ => cases h
  | spawnFail i =>
      simp only [applyEvt] at h
      split at h
      case _ g j hg =>
        cases h
        apply inv_replace inv hg
        · simp [Task.refIds]
        · simp [Task.refIds]
        · simp [Task.ownedIds]
        · have hokt := inv.tasksOK _ (List.get?_mem hg)
          simpa [TaskOK] using hokt
        · simp [Task.heldCount]
        · simp [Task.busyContrib]
      case _ g j hg =>
        cases h
        apply inv_replace inv hg
        · simp [Task.refIds]
        · simp [Task.refIds]
        · simp [Task.ownedIds]
        · have hokt := inv.tasksOK _ (List.get?_mem hg)
          simpa [TaskOK] using hokt
        · simp [Task.heldCount]
        · simp [Task.busyContrib]
      case _ => cases h
  | failSet i =>
      simp only [applyEvt] at h
      split at h
      case _ g j hg =>
        cases h
        apply inv_write inv hg
        · simp [Task.refIds]
        · exact Or.inr (by simp [Task.refIds])
        · simp [Task.heldCount]
        · simp [Task.busyContrib]
        · exact trivial
        · refine Or.inr ⟨?_, ?_, ?_⟩
          · intro g' hc
            cases hc
          · simp [Task.ownedIds]
          · simp [Task.ownedIds]
      case _ => cases h
  | failSend i =>
      simp only [applyEvt] at h
      split at h
      case _ g hg =>
        cases h
        apply inv_replace inv hg
        · simp [Task.refIds]
        · simp [Task.refIds]
        · simp [Task.ownedIds]
        · exact trivial
        · simp [Task.heldCount]
        · simp [Task.busyContrib]
      case _ => cases h
  | failDec i =>
      simp only [applyEvt] at h
      split at h
      case _ g hg =>
        cases h
        obtain ⟨l₁, l₂, hts, hset, hdel⟩ := get_set_decomp c.tasks i _ hg
        have hb : 1 ≤ c.busy := by
          have hc := inv.busyEq
          rw [hts, natSum_middle] at hc
          simp only [Task.busyContrib] at hc
          omega
        apply inv_remove inv hg
        · simp [Task.refIds]
        · simp [Task.ownedIds]
        · simp [Task.heldCount]
        · simp only [Task.busyContrib]
          omega
      case _ => cases h
  | insertPid i =>
      simp only [applyEvt] at h
      split at h
      case _ g jid pid hg =>
        cases h
        apply inv_replace inv hg
        · simp [Task.refIds]
        · simp [Task.refIds]
        · simp [Task.ownedIds]
        · have hokt := inv.tasksOK _ (List.get?_mem hg)
          simpa [TaskOK] using hokt
        · simp [Task.heldCount]
        · simp [Task.busyContrib]
      case _ => cases h
  | procExit i ok =>
      simp only [applyEvt] at h
      split at h
      case _ g jid hg =>
        cases h
        apply inv_replace inv hg
        · simp [Task.refIds]
        · simp [Task.refIds]
        · simp [Task.ownedIds]
        · have hokt := inv.tasksOK _ (List.get?_mem hg)
          simpa [TaskOK] using hokt
        · simp [Task.heldCount]
        · simp [Task.busyContrib]
      case _ => cases h
  | setExit i =>
      simp only [applyEvt] at h
      split at h
      case _ g jid ok hg =>
        cases h
        have hokt := inv.tasksOK _ (List.get?_mem hg)
        simp only [TaskOK] at hokt
        apply inv_write inv hg
        · simp [Task.refIds]
        · exact Or.inl (by simp [Task.refIds])
        · simp [Task.heldCount]
        · simp [Task.busyContrib]
        · show TaskOK _ (Task.sup g (.removePid jid))
          simp only [TaskOK]
          rw [jobStateOf_setJobState_self, hokt]
          cases ok
          · exact Or.inr rfl
          · exact Or.inl rfl
        · refine Or.inr ⟨?_, by simp [Task.ownedIds], by simp [Task.ownedIds]⟩
          intro g' hc
          cases ok <;> simp at hc
      case _ => cases h
  | removePid i =>
      simp only [applyEvt] at h
      split at h
      case _ g jid hg =>
        cases h
        apply inv_replace inv hg
        · simp [Task.refIds]
        · simp [Task.refIds]
        · simp [Task.ownedIds]
        · exact trivial
        · simp [Task.heldCount]
        · simp [Task.busyContrib]
      case _ => cases h
  | drain i =>
      simp only [applyEvt] at h
      split at h
      case _ g hg =>
        split at h
        case _ j qs hq =>
            cases h
            obtain ⟨l₁, l₂, hts, hset, hdel⟩ := get_set_decomp c.tasks i _ hg
            have hshape : allRef c = (j.id :: qs.map JobSpec.id) ++
                (catMap Task.refIds l₁ ++ (Task.refIds (Task.sup g .drain) ++
                  catMap Task.refIds l₂)) := by
              rw [allRef, hts, catMap_middle, hq]
              rfl
            have hnd := inv.refNodup
            rw [hshape] at hnd
            refine ⟨inv.jobsNodup, inv.jobsLt, ?_, ?_, ?_, ?_, ?_, ?_, ?_⟩
            · intro x hx
              simp only [allRef, hset _, catMap_middle, mem_parts, Task.refIds,
                List.mem_singleton] at hx
              apply inv.refLt
              rw [hshape, mem_parts]
              simp only [Task.refIds, List.mem_cons]
              tauto
            · show (allRef _).Nodup
              simp only [allRef, hset _, catMap_middle]
              exact nodup_move_from_queue hnd
            · intro q hq₂
              dsimp only at hq₂ ⊢
              exact inv.queueQueued q (by rw [hq]; exact List.mem_cons_of_mem j hq₂)
            · intro t₂ ht₂
              dsimp only at ht₂ ⊢
              rw [hset _] at ht₂
              rcases List.mem_append.mp ht₂ with h₂ | h₂
              · exact inv.tasksOK t₂ (by rw [hts]; exact List.mem_append_left _ h₂)
              · rcases List.mem_cons.mp h₂ with rfl | h₂
                · show jobStateOf c.jobs j.id = some .queued
                  exact inv.queueQueued j (by rw [hq]; exact List.mem_cons_self j qs)
                · exact inv.tasksOK t₂ (by
                    rw [hts]
                    exact List.mem_append_right _ (List.mem_cons_of_mem _ h₂))
            · intro r' hr' hrun
              dsimp only at hr' ⊢
              have hold := inv.runningOwned r' hr' hrun
              show r'.id ∈ ownedAll _
              simp only [ownedAll, hset _, catMap_middle]
              unfold ownedAll at hold
              rw [hts, catMap_middle] at hold
              simpa [Task.ownedIds] using hold
            · have hc := inv.slotConserve
              rw [hts, natSum_middle] at hc
              dsimp only
              rw [hset _, natSum_middle]
              simp only [Task.heldCount] at hc ⊢
              omega
            · have hc := inv.busyEq
              rw [hts, natSum_middle] at hc
              dsimp only
              rw [hset _, natSum_middle]
              simp only [Task.busyContrib] at hc ⊢
              omega
        case _ hq =>
            cases h
            apply inv_replace inv hg
            · simp [Task.refIds]
            · simp [Task.refIds]
            · simp [Task.ownedIds]
            · exact trivial
            · simp [Task.heldCount]
            · simp [Task.busyContrib]
      case _ => cases h
  | setNextRun i =>
      simp only [applyEvt] at h
      split at h
      case _ g j hg =>
        cases h
        apply inv_write inv hg
        · simp [Task.refIds]
        · exact Or.inl (by simp [Task.refIds])
        · simp [Task.heldCount]
        · simp [Task.busyContrib]
        · have hokt := inv.tasksOK _ (List.get?_mem hg)
          simp only [TaskOK] at hokt ⊢
          rw [jobStateOf_setJobState_self, hokt]
          rfl
        · exact Or.inl ⟨⟨g, rfl⟩, by simp [Task.ownedIds], by simp [Task.ownedIds]⟩
      case _ => cases h
  | nextFailSet i =>
      simp only [applyEvt] at h
      split at h
      case _ g j hg =>
        cases h
        apply inv_write inv hg
        · simp [Task.refIds]
        · exact Or.inr (by simp [Task.refIds])
        · simp [Task.heldCount]
        · simp [Task.busyContrib]
        · exact trivial
        · refine Or.inr ⟨?_, ?_, ?_⟩
          · intro g' hc
            cases hc
          · simp [Task.ownedIds]
          · simp [Task.ownedIds]
      case _ => cases h
  | release i =>
      simp only [applyEvt] at h
      split at h
      case _ g hg =>
        cases h
        apply inv_replace inv hg
        · simp [Task.refIds]
        · simp [Task.refIds]
        · simp [Task.ownedIds]
        · exact trivial
        · simp [Task.heldCount]
        · simp [Task.busyContrib]
      case _ => cases h
  | releaseDec i =>
      simp only [applyEvt] at h
      split at h
      case _ g hg =>
        cases h
        obtain ⟨l₁, l₂, hts, hset, hdel⟩ := get_set_decomp c.tasks i _ hg
        have hb : 1 ≤ c.busy := by
          have hc := inv.busyEq
          rw [hts, natSum_middle] at hc
          simp only [Task.busyContrib] at hc
          omega
        apply inv_remove inv hg
        · simp [Task.refIds]
        · simp [Task.ownedIds]
        · simp [Task.heldCount]
        · simp only [Task.busyContrib]
          omega
      case _ => cases h
  | logLine jid line =>
      simp only [applyEvt] at h
      cases h
      refine ⟨?_, ?_, inv.refLt, inv.refNodup, ?_, ?_, ?_, inv.slotConserve, inv.busyEq⟩
      · dsimp only
        rw [appendLog_map_id]
        exact inv.jobsNodup
      · exact ids_lt_of_map_eq (appendLog_map_id c.jobs jid line) inv.jobsLt
      · intro q hq
        dsimp only at hq ⊢
        rw [jobStateOf_appendLog]
        exact inv.queueQueued q hq
      · intro t₂ ht₂
        dsimp only at ht₂ ⊢
        exact TaskOK_of_state_eq t₂ (fun x _ => jobStateOf_appendLog c.jobs jid line x)
          (inv.tasksOK t₂ ht₂)
      · intro r' hr' hrun
        dsimp only at hr' ⊢
        obtain ⟨r, hr, hid, hstate⟩ := mem_appendLog_cases c.jobs jid line r' hr'
        obtain ⟨g, hgs⟩ := hrun
        have hold := inv.runningOwned r hr ⟨g, by rw [← hstate, hgs]⟩
        show r'.id ∈ ownedAll _
        rw [hid]
        exact hold

/-- The startup configuration satisfies the invariant. -/
theorem inv_init (S : Nat) : Inv S (initConfig S) := by
  refine ⟨?_, ?_, ?_, ?_, ?_, ?_, ?_, ?_, ?_⟩ <;>
    simp [initConfig, allRef, catMap, natSum, ownedAll]

/-- Every reachable configuration satisfies the invariant. -/
theorem inv_reachable {S : Nat} {c : Config} (h : Reachable S c) : Inv S c := by
  induction h with
  | refl => exact inv_init S
  | tail hab hbc ih =>
      obtain ⟨e, he⟩ := hbc
      exact inv_step he ih

theorem get?_concat_length' (l : List Task) (a : Task) : (l ++ [a]).get? l.length = some a := by
  induction l with
  | nil => rfl
  | cons t ts ih => exact ih

theorem set_concat_length (l : List Task) (a b : Task) :
    (l ++ [a]).set l.length b = l ++ [b] := by
  induction l with
  | nil => rfl
  | cons t ts ih =>
      show t :: (ts ++ [a]).set ts.length b = t :: (ts ++ [b])
      rw [ih]

theorem eraseIdx_concat_length (l : List Task) (a : Task) :
    (l ++ [a]).eraseIdx l.length = l := by
  induction l with
  | nil => rfl
  | cons t ts ih =>
      show t :: (ts ++ [a]).eraseIdx ts.length = t :: ts
      rw [ih]

/-- The uninterleaved execution of one whole `submit` call is a sequence of
steps of the transition system: `submitRun` agrees with the event-level
semantics. -/
theorem submitRun_reachable (c : Config) (cmd : String) :
    Relation.ReflTransGen Step c (submitRun c cmd) := by
  cases hp : c.pool with
  | nil =>
      apply applyEvts_sound
        [Evt.submitStart cmd, .subPush c.tasks.length, .subAcquire c.tasks.length,
         .subEnqueue c.tasks.length]
      simp only [applyEvts, applyEvt, get?_concat_length', set_concat_length,
        eraseIdx_concat_length, hp, submitRun]
  | cons g ps =>
      apply applyEvts_sound
        [Evt.submitStart cmd, .subPush c.tasks.length, .subAcquire c.tasks.length,
         .subIncBusy c.tasks.length, .subSetRunning c.tasks.length,
         .subStartTask c.tasks.length]
      simp only [applyEvts, applyEvt, get?_concat_length', set_concat_length,
        eraseIdx_concat_length, hp, submitRun]

/-! ## Claim theorems: idleness (C2) -/

/-- C2 counterexample: the claim "`is_idle()` returns true exactly when the
JobQueue is empty and zero jobs are in state Running" is false.  In this
reachable configuration a job's process has exited and `Completed` has been
published, but the supervisor has not yet decremented `busy`: the queue is
empty, zero jobs are Running, yet `is_idle()` is false. -/
theorem c2_idle_not_equiv_zero_running :
    Reachable 1 c2cexCfg ∧ c2cexCfg.queue = [] ∧ countRunning c2cexCfg.jobs = 0 ∧
      c2cexCfg.busy = 1 ∧ isIdle c2cexCfg = false ∧
      ¬ (isIdle c2cexCfg = true ↔ c2cexCfg.queue = [] ∧ countRunning c2cexCfg.jobs = 0) :=
  ⟨applyEvts_sound c2cexEvs (by decide), by decide, by decide, by decide, by decide,
   by decide⟩

/-- C2 (amended): `is_idle()` returns true exactly when the JobQueue is
empty and the busy counter is zero; in every reachable state a zero busy
counter forces zero Running jobs (but not conversely, as the counter is
held across a job's terminal transition); and a complete `submit()` call —
itself a sequence of steps of the system — always leaves `is_idle()`
false. -/
theorem c2_is_idle_characterization {S : Nat} {c : Config} (h : Reachable S c) (cmd : String) :
    (isIdle c = true ↔ c.queue = [] ∧ c.busy = 0) ∧
    (c.busy = 0 → countRunning c.jobs = 0) ∧
    isIdle (submitRun c cmd) = false ∧
    Relation.ReflTransGen Step c (submitRun c cmd) := by
  refine ⟨?_, ?_, ?_, submitRun_reachable c cmd⟩
  · simp [isIdle, List.isEmpty_iff]
  · intro hb
    have inv := inv_reachable h
    have h1 := countRunning_le_owned inv
    have h2 := owned_le_busy inv
    omega
  · unfold submitRun
    cases hp : c.pool <;> simp [isIdle]

/-- Closed instance of `c2_is_idle_characterization` at the startup
configuration with one slot. -/
theorem c2_is_idle_characterization_witness :
    (isIdle (initConfig 1) = true ↔ (initConfig 1).queue = [] ∧ (initConfig 1).busy = 0) ∧
    ((initConfig 1).busy = 0 → countRunning (initConfig 1).jobs = 0) ∧
    isIdle (submitRun (initConfig 1) "a") = false ∧
    Relation.ReflTransGen Step (initConfig 1) (submitRun (initConfig 1) "a") :=
  c2_is_idle_characterization Relation.ReflTransGen.refl "a"

/-! ## Claim theorems: slot bound (C4) -/

/-- C4 counterexample: the claimed equality "the count of Running jobs
equals the count of slots not in the free pool" fails in a reachable
state: a `submit` has popped the only slot from the pool (`try_recv`) but
has not yet published `Running`, so zero jobs are Running while one slot
is out of the pool. -/
theorem c4_running_not_eq_slots_out :
    Reachable 1 c4cexCfg ∧ countRunning c4cexCfg.jobs = 0 ∧ c4cexCfg.pool.length = 0 ∧
      ¬ countRunning c4cexCfg.jobs = 1 - c4cexCfg.pool.length :=
  ⟨applyEvts_sound c4cexEvs (by decide), by decide, by decide, by decide⟩

/-- C4 (amended): with `S` slots, in every reachable state at most `S`
jobs are simultaneously Running, and the count of Running jobs is at most
the count of slots not in the free pool (equality can fail transiently
between a slot's removal from the pool and the `Running` publication, and
between a terminal publication and the slot's release). -/
theorem c4_at_most_S_running {S : Nat} {c : Config} (h : Reachable S c) :
    countRunning c.jobs ≤ S ∧ countRunning c.jobs + c.pool.length ≤ S := by
  have inv := inv_reachable h
  have h1 := countRunning_le_owned inv
  have h2 := owned_le_held inv
  constructor <;> omega

/-- Closed instance of `c4_at_most_S_running` at the configuration of the
C4 counterexample. -/
theorem c4_at_most_S_running_witness :
    countRunning c4cexCfg.jobs ≤ 1 ∧ countRunning c4cexCfg.jobs + c4cexCfg.pool.length ≤ 1 :=
  c4_at_most_S_running (applyEvts_sound c4cexEvs (by decide))

/-! ## Claim theorems: Queued visible before Running (C8) -/

theorem jobStateOf_append (js : List JobInfo) (r : JobInfo) (x : Nat) :
    jobStateOf (js ++ [r]) x =
      (jobStateOf js x).or (if r.id = x then some r.state else none) := by
  induction js with
  | nil =>
      simp only [List.nil_append, jobStateOf, List.find?]
      by_cases hid : r.id = x
      · have : (r.id == x) = true := by simp [hid]
        simp [this, hid]
      · have : (r.id == x) = false := by simp [hid]
        simp [this, hid]
  | cons hd rest ih =>
      simp only [List.cons_append, jobStateOf, List.find?] at ih ⊢
      cases hx : (hd.id == x) with
      | true => simp
      | false => exact ih

/-- If a step publishes `Running` for a job that was not Running before it,
the job's record was `Queued` in the pre-state. -/
theorem running_step_back {S : Nat} {b c : Config} {e : Evt}
    (he : applyEvt b e = some c) (invb : Inv S b) (jid g : Nat)
    (hrun : jobStateOf c.jobs jid = some (.running g))
    (hnb : ¬ ∃ g', jobStateOf b.jobs jid = some (.running g')) :
    jobStateOf b.jobs jid = some .queued := by
  cases e with
  | submitStart cmd =>
      simp only [applyEvt] at he
      cases he
      exact absurd ⟨g, hrun⟩ hnb
  | logLine jid₂ line =>
      simp only [applyEvt] at he
      cases he
      dsimp only at hrun
      rw [jobStateOf_appendLog] at hrun
      exact absurd ⟨g, hrun⟩ hnb
  | subPush i =>
      simp only [applyEvt] at he
      split at he
      case _ j hg =>
        cases he
        dsimp only at hrun
        rw [jobStateOf_append] at hrun
        cases ho : jobStateOf b.jobs jid with
        | some s =>
            rw [ho] at hrun
            simp only [Option.or] at hrun
            exact absurd ⟨g, ho.trans hrun⟩ hnb
        | none =>
            rw [ho] at hrun
            simp only [Option.or] at hrun
            split at hrun
            · cases hrun
            · cases hrun
      case _ => cases he
  | subSetRunning i =>
      simp only [applyEvt] at he
      split at he
      case _ j g₂ hg =>
        cases he
        dsimp only at hrun
        by_cases hj : jid = j.id
        · subst hj
          have hokt := invb.tasksOK _ (List.get?_mem hg)
          simpa [TaskOK] using hokt
        · rw [jobStateOf_setJobState_ne _ _ _ _ hj] at hrun
          exact absurd ⟨g, hrun⟩ hnb
      case _ => cases he
  | setNextRun i =>
      simp only [applyEvt] at he
      split at he
      case _ g₂ j hg =>
        cases he
        dsimp only at hrun
        by_cases hj : jid = j.id
        · subst hj
          have hokt := invb.tasksOK _ (List.get?_mem hg)
          simpa [TaskOK] using hokt
        · rw [jobStateOf_setJobState_ne _ _ _ _ hj] at hrun
          exact absurd ⟨g, hrun⟩ hnb
      case _ => cases he
  | failSet i =>
      simp only [applyEvt] at he
      split at he
      case _ g₂ j hg =>
        cases he
        dsimp only at hrun
        by_cases hj : jid = j.id
        · subst hj
          rw [jobStateOf_setJobState_self] at hrun
          cases ho : jobStateOf b.jobs j.id with
          | some s => rw [ho] at hrun; simp at hrun
          | none => rw [ho] at hrun; simp at hrun
        · rw [jobStateOf_setJobState_ne _ _ _ _ hj] at hrun
          exact absurd ⟨g, hrun⟩ hnb
      case _ => cases he
  | nextFailSet i =>
      simp only [applyEvt] at he
      split at he
      case _ g₂ j hg =>
        cases he
        dsimp only at hrun
        by_cases hj : jid = j.id
        · subst hj
          rw [jobStateOf_setJobState_self] at hrun
          cases ho : jobStateOf b.jobs j.id with
          | some s => rw [ho] at hrun; simp at hrun
          | none => rw [ho] at hrun; simp at hrun
        · rw [jobStateOf_setJobState_ne _ _ _ _ hj] at hrun
          exact absurd ⟨g, hrun⟩ hnb
      case _ => cases he
  | setExit i =>
      simp only [applyEvt] at he
      split at he
      case _ g₂ jid₂ ok hg =>
        cases he
        dsimp only at hrun
        by_cases hj : jid = jid₂
        · subst hj
          rw [jobStateOf_setJobState_self] at hrun
          cases ho : jobStateOf b.jobs jid with
          | some s => rw [ho] at hrun; cases ok <;> simp at hrun
          | none => rw [ho] at hrun; simp at hrun
        · rw [jobStateOf_setJobState_ne _ _ _ _ hj] at hrun
          exact absurd ⟨g, hrun⟩ hnb
      case _ => cases he
  | subAcquire i =>
      simp only [applyEvt] at he
      split at he
      case _ j hg =>
        split at he <;> cases he <;> exact absurd ⟨g, hrun⟩ hnb
      case _ => cases he
  | drain i =>
      simp only [applyEvt] at he
      split at he
      case _ g₂ hg =>
        split at he <;> cases he <;> exact absurd ⟨g, hrun⟩ hnb
      case _ => cases he
  | subIncBusy i =>
      simp only [applyEvt] at he
      split at he <;> try cases he
      exact absurd ⟨g, hrun⟩ hnb
  | subStartTask i =>
      simp only [applyEvt] at he
      split at he <;> try cases he
      exact absurd ⟨g, hrun⟩ hnb
  | subEnqueue i =>
      simp only [applyEvt] at he
      split at he <;> try cases he
      exact absurd ⟨g, hrun⟩ hnb
  | spawnOk i pid =>
      simp only [applyEvt] at he
      split at he <;> try cases he
      all_goals exact absurd ⟨g, hrun⟩ hnb
  | spawnFail i =>
      simp only [applyEvt] at he
      split at he <;> try cases he
      all_goals exact absurd ⟨g, hrun⟩ hnb
  | failSend i =>
      simp only [applyEvt] at he
      split at he <;> try cases he
      exact absurd ⟨g, hrun⟩ hnb
  | failDec i =>
      simp only [applyEvt] at he
      split at he <;> try cases he
      exact absurd ⟨g, hrun⟩ hnb
  | insertPid i =>
      simp only [applyEvt] at he
      split at he <;> try cases he
      exact absurd ⟨g, hrun⟩ hnb
  | procExit i ok =>
      simp only [applyEvt] at he
      split at he <;> try cases he
      exact absurd ⟨g, hrun⟩ hnb
  | removePid i =>
      simp only [applyEvt] at he
      split at he <;> try cases he
      exact absurd ⟨g, hrun⟩ hnb
  | release i =>
      simp only [applyEvt] at he
      split at he <;> try cases he
      exact absurd ⟨g, hrun⟩ hnb
  | releaseDec i =>
      simp only [applyEvt] at he
      split at he <;> try cases he
      exact absurd ⟨g, hrun⟩ hnb

/-- C8: every job observable as `Running` was observable as `Queued` at a
strictly earlier point of the same execution: `submit` publishes the
`Queued` record before any slot acquisition or launch, and the only steps
that publish `Running` act on a record that is `Queued`. -/
theorem c8_queued_published_before_running {S : Nat} {c : Config} (h : Reachable S c) :
    ∀ jid g, jobStateOf c.jobs jid = some (.running g) →
      ∃ c', Reachable S c' ∧ Relation.ReflTransGen Step c' c ∧
        jobStateOf c'.jobs jid = some .queued := by
  induction h with
  | refl =>
      intro jid g hrun
      simp [initConfig, jobStateOf] at hrun
  | tail hab hbc ih =>
      rename_i b c₂
      intro jid g hrun
      by_cases hb : ∃ g', jobStateOf b.jobs jid = some (.running g')
      · obtain ⟨g', hb'⟩ := hb
        obtain ⟨c', h1, h2, h3⟩ := ih jid g' hb'
        exact ⟨c', h1, h2.tail hbc, h3⟩
      · obtain ⟨e, he⟩ := hbc
        have invb := inv_reachable hab
        have hq := running_step_back he invb jid g hrun hb
        exact ⟨_, hab, Relation.ReflTransGen.single ⟨e, he⟩, hq⟩

/-- Closed instance of `c8_queued_published_before_running`: in the
concrete run `c8evs` the job published `Running 0` was previously
published `Queued`. -/
theorem c8_queued_published_before_running_witness :
    ∃ c', Reachable 1 c' ∧ Relation.ReflTransGen Step c' c8cfg ∧
      jobStateOf c'.jobs 0 = some .queued :=
  c8_queued_published_before_running (applyEvts_sound c8evs (by decide)) 0 0 (by decide)

end GParallel
